import Mathlib

/-! ## turbolift: `internal/campaign/campaign.go`

A shallow embedding of the campaign loader and a verification of its
specification.

Modelling conventions.

* A Go `string` is a list of characters (`Str`).  The manifest and the README
  are UTF-8 text and every separator used by the code (`/`, `@`, `#`, space,
  `-`, newline) is a one-byte ASCII character, so splitting and trimming by
  character agrees with Go's byte-level behaviour.
* A file is the sequence of lines that `bufio.Scanner` hands to the loop body
  (`scanner.Text()` for each successful `scanner.Scan()`), followed by the
  value of `scanner.Err()`.  A file system maps a file name to such a file, or
  to `none` when `os.Open` fails.
* A Go `(value, error)` result is an `Except`: `return nil, err` is
  `Except.error`.  Each Go error value is a constructor of `Err`, one per
  place where the code builds an error; `Err.message` is its text.
* The `uniq` map is used as a set of strings; it is modelled as the list of
  its keys.
* The helpers of the Go standard library that the code calls (`strings.Split`,
  `strings.HasPrefix`, `strings.TrimSuffix`, `strings.TrimLeft`,
  `strings.Join`, `path.Join`, `filepath.Base`) are embedded under their Go
  names.
-/

set_option autoImplicit false

/-- A Go string. -/
abbrev Str := List Char

/-! ## The parts of the Go standard library used by the code -/

namespace strings

/-- Go `strings.Split(s, sep)` for a separator `sep` of one character: the
substrings of `s` between the occurrences of `sep`.  The result always has
one element more than `s` has occurrences of `sep`. -/
def Split (sep : Char) : Str → List Str
  | [] => [[]]
  | c :: cs =>
    if c = sep then [] :: Split sep cs
    else
      match Split sep cs with
      | [] => [[c]]
      | seg :: segs => (c :: seg) :: segs

/-- Go `strings.HasPrefix(s, prefix)`. -/
def HasPrefix (s pre : Str) : Bool :=
  pre.isPrefixOf s

/-- Go `strings.HasSuffix(s, suffix)`. -/
def HasSuffix (s suffix : Str) : Bool :=
  suffix.isSuffixOf s

/-- Go `strings.TrimSuffix(s, suffix)`: `s` without the trailing `suffix`, or
`s` itself when it does not end with `suffix`. -/
def TrimSuffix (s suffix : Str) : Str :=
  if HasSuffix s suffix then s.take (s.length - suffix.length) else s

/-- Go `strings.TrimLeft(s, cutset)`: `s` without its leading characters that
belong to `cutset`. -/
def TrimLeft (s cutset : Str) : Str :=
  s.dropWhile (fun c => decide (c ∈ cutset))

/-- Go `strings.Join(elems, sep)`. -/
def Join : List Str → Str → Str
  | [], _ => []
  | [a], _ => a
  | a :: b :: rest, sep => a ++ sep ++ Join (b :: rest) sep

end strings

namespace path

/-- The inner loop of the `..` case of Go `path.Clean`: starting from write
index `w`, step back while `w > dotdot` and `buf[w]` is not a slash. -/
def backtrack (buf : Str) (dotdot : Nat) : Nat → Nat
  | 0 => 0
  | w + 1 =>
    if w + 1 > dotdot ∧ buf.get? (w + 1) ≠ some '/' then backtrack buf dotdot w
    else w + 1

/-- The main loop of Go `path.Clean`.  `p` is the unread input `path[r:]`,
`out` is the text written so far (`buf[:w]`), `dotdot` is the index where a
`..` element must stop backtracking.  Every iteration consumes at least one
character of `p`, so a fuel of `len(path)` is enough. -/
def cleanLoop (rooted : Bool) : Nat → Str → Str → Nat → Str
  | 0, _, out, _ => out
  | _ + 1, [], out, _ => out
  | fuel + 1, c :: p, out, dotdot =>
    if c = '/' then
      -- empty path element
      cleanLoop rooted fuel p out dotdot
    else if c = '.' ∧ (p = [] ∨ p.head? = some '/') then
      -- . element
      cleanLoop rooted fuel p out dotdot
    else if c = '.' ∧ p.head? = some '.' ∧ (p.tail = [] ∨ p.tail.head? = some '/') then
      -- .. element: remove to last /
      if out.length > dotdot then
        cleanLoop rooted fuel p.tail (out.take (backtrack out dotdot (out.length - 1))) dotdot
      else if !rooted then
        let out1 := (if out.length > 0 then out ++ ['/'] else out) ++ ['.', '.']
        cleanLoop rooted fuel p.tail out1 out1.length
      else
        cleanLoop rooted fuel p.tail out dotdot
    else
      -- real path element: add slash if needed, copy element
      let out1 :=
        if (rooted && out.length != 1) || (!rooted && out.length != 0) then out ++ ['/']
        else out
      cleanLoop rooted fuel ((c :: p).dropWhile (fun x => x != '/'))
        (out1 ++ (c :: p).takeWhile (fun x => x != '/')) dotdot

/-- Go `path.Clean(path)`: the shortest path name equivalent to `path` by
purely lexical processing. -/
def Clean (path : Str) : Str :=
  if path = [] then ['.']
  else
    let out :=
      if path.head? = some '/' then cleanLoop true path.length path.tail ['/'] 1
      else cleanLoop false path.length path [] 0
    if out = [] then ['.'] else out

/-- Go `path.Join(elem...)`: the non-empty elements joined with slashes, then
cleaned; empty elements are ignored. -/
def Join (elem : List Str) : Str :=
  if (elem.map List.length).sum = 0 then []
  else
    Clean (elem.foldl
      (fun buf e =>
        if buf.length > 0 ∨ e ≠ [] then (if buf.length > 0 then buf ++ ['/'] else buf) ++ e
        else buf)
      [])

end path

namespace filepath

/-- Go `filepath.Base(path)` on a system whose path separator is the slash and
that has no volume names: the last element of `path`, after removing trailing
slashes; `.` for the empty path and `/` for a path made of slashes only. -/
def Base (path : Str) : Str :=
  if path = [] then ['.']
  else
    -- strip trailing slashes
    let stripped := (path.reverse.dropWhile (fun c => c == '/')).reverse
    -- find the last element
    let last := (stripped.reverse.takeWhile (fun c => c != '/')).reverse
    -- if empty now, it had only slashes
    if last = [] then ['/'] else last

end filepath

/-! ## The data model -/

namespace campaign

/-- The Go struct `Repo`. -/
structure Repo where
  Host : Str
  OrgName : Str
  RepoName : Str
  FullRepoName : Str
  BranchName : Str
  deriving DecidableEq, Repr

/-- The Go struct `Campaign`. -/
structure Campaign where
  Name : Str
  Repos : List Repo
  PrTitle : Str
  PrBody : Str
  deriving DecidableEq, Repr

/-- The Go struct `CampaignOptions`. -/
structure CampaignOptions where
  RepoFilename : Str
  deriving DecidableEq, Repr

/-- Go `func NewCampaignOptions() *CampaignOptions`. -/
def NewCampaignOptions : CampaignOptions :=
  { RepoFilename := "repos.txt".toList }

/-- The error values built by the package, one constructor per place in the
code. -/
inductive Err where
  /-- Go `errors.New("no repos filename to open")`. -/
  | noReposFilename
  /-- Go `fmt.Errorf("unable to open repo file: %s", filename)`. -/
  | openRepoFile (filename : Str)
  /-- Go `fmt.Errorf("unable to parse entry in %s file: %s", filename, line)`. -/
  | parseEntry (filename line : Str)
  /-- Go `fmt.Errorf("unable to open %s file: %w", filename, err)`. -/
  | scanRepoFile (filename cause : Str)
  /-- Go `errors.New("unable to open README.md file")`. -/
  | openReadme
  /-- Go `errors.New("unable to read README.md file")`. -/
  | readReadme
  deriving DecidableEq, Repr

/-- The text of an error value. -/
def Err.message : Err → Str
  | .noReposFilename => "no repos filename to open".toList
  | .openRepoFile filename => "unable to open repo file: ".toList ++ filename
  | .parseEntry filename line =>
    "unable to parse entry in ".toList ++ filename ++ " file: ".toList ++ line
  | .scanRepoFile filename cause =>
    "unable to open ".toList ++ filename ++ " file: ".toList ++ cause
  | .openReadme => "unable to open README.md file".toList
  | .readReadme => "unable to read README.md file".toList

/-- Equality of results is decidable. -/
instance instDecidableEqResult {α : Type} [DecidableEq α] : DecidableEq (Except Err α)
  | .ok a, .ok b =>
    if h : a = b then isTrue (by rw [h]) else isFalse (fun hab => h (by cases hab; rfl))
  | .error a, .error b =>
    if h : a = b then isTrue (by rw [h]) else isFalse (fun hab => h (by cases hab; rfl))
  | .ok _, .error _ => isFalse (fun hab => by cases hab)
  | .error _, .ok _ => isFalse (fun hab => by cases hab)

/-- What a `bufio.Scanner` over an opened file produces: the lines returned by
the successful calls of `Scan`, then the value of `scanner.Err()` (`none` for
`nil`). -/
structure FileData where
  lines : List Str
  scanErr : Option Str
  deriving DecidableEq, Repr

/-- The file system seen by `os.Open`: `none` when the file cannot be
opened. -/
abbrev FileSystem := Str → Option FileData

/-! ## The derived names -/

/-- Go `func (r Repo) DirName() string`. -/
def Repo.DirName (r : Repo) : Str :=
  if r.BranchName = [] then r.RepoName
  else r.RepoName ++ ['-'] ++ r.BranchName

/-- Go `func (r Repo) VisibleName() string`. -/
def Repo.VisibleName (r : Repo) : Str :=
  if r.BranchName = [] then r.FullRepoName
  else r.FullRepoName ++ ['@'] ++ r.BranchName

/-- Go `func (r Repo) FullRepoPath() string`. -/
def Repo.FullRepoPath (r : Repo) : Str :=
  let repoName := if r.BranchName ≠ [] then r.RepoName ++ (['-'] ++ r.BranchName) else r.RepoName
  path.Join ["work".toList, r.OrgName, repoName]

/-! ## The repo list parser -/

/-- The second half of the loop body of `readReposTxtFile` (the switch on
`len(splitRepoName)` and the construction of the `Repo`). -/
def splitBranch (line host orgName repoName : Str) : Repo :=
  match strings.Split '@' repoName with
  | [_] =>
    { Host := host, OrgName := orgName, RepoName := repoName,
      FullRepoName := line, BranchName := [] }
  | [name, branchName] =>
    { Host := host, OrgName := orgName, RepoName := name,
      FullRepoName := strings.TrimSuffix line (['@'] ++ branchName),
      BranchName := branchName }
  | _ =>
    { Host := host, OrgName := orgName, RepoName := repoName,
      FullRepoName := [], BranchName := [] }

/-- The loop body of `readReposTxtFile` for a line that is kept: the switch on
`len(splitLine)`, then `splitBranch`. -/
def parseEntry (filename line : Str) : Except Err Repo :=
  match strings.Split '/' line with
  | [orgName, repoName] => .ok (splitBranch line [] orgName repoName)
  | [host, orgName, repoName] => .ok (splitBranch line host orgName repoName)
  | _ => .error (.parseEntry filename line)

/-- The `for scanner.Scan()` loop of `readReposTxtFile`, over the remaining
lines, with the set `uniq` of lines seen and the slice `repos` built so far. -/
def scanRepos (filename : Str) : List Str → List Str → List Repo → Except Err (List Repo)
  | [], _, repos => .ok repos
  | line :: rest, uniq, repos =>
    if !strings.HasPrefix line ['#'] && line.length > 0 then
      if line ∈ uniq then scanRepos filename rest uniq repos
      else
        match parseEntry filename line with
        | .error e => .error e
        | .ok repo => scanRepos filename rest (line :: uniq) (repos ++ [repo])
    else scanRepos filename rest uniq repos

/-- Go `func readReposTxtFile(filename string) ([]Repo, error)`. -/
def readReposTxtFile (fs : FileSystem) (filename : Str) : Except Err (List Repo) :=
  if filename = [] then .error .noReposFilename
  else
    match fs filename with
    | none => .error (.openRepoFile filename)
    | some file =>
      match scanRepos filename file.lines [] [] with
      | .error e => .error e
      | .ok repos =>
        match file.scanErr with
        | some cause => .error (.scanRepoFile filename cause)
        | none => .ok repos

/-! ## The description extractor -/

/-- The `for scanner.Scan()` loop of `readPrDescriptionFile`, over the
remaining lines, with `prTitle` and `prBodyLines` as built so far. -/
def scanDescription : List Str → Str → List Str → Str × List Str
  | [], prTitle, prBodyLines => (prTitle, prBodyLines)
  | line :: rest, prTitle, prBodyLines =>
    if prTitle = [] then
      scanDescription rest (strings.TrimLeft line ['#', ' ']) prBodyLines
    else
      scanDescription rest prTitle (prBodyLines ++ [line])

/-- The name of the description document. -/
def readmeFilename : Str := "README.md".toList

/-- Go `func readPrDescriptionFile() (string, string, error)`. -/
def readPrDescriptionFile (fs : FileSystem) : Except Err (Str × Str) :=
  match fs readmeFilename with
  | none => .error .openReadme
  | some file =>
    let result := scanDescription file.lines [] []
    match file.scanErr with
    | some _ => .error .readReadme
    | none => .ok (result.1, strings.Join result.2 ['\n'])

/-! ## The campaign assembler -/

/-- Go `func OpenCampaign(options *CampaignOptions) (*Campaign, error)`.  `dir`
is the value returned by `os.Getwd()`, whose error the code discards. -/
def OpenCampaign (dir : Str) (fs : FileSystem) (options : CampaignOptions) :
    Except Err Campaign :=
  let dirBasename := filepath.Base dir
  match readReposTxtFile fs options.RepoFilename with
  | .error err => .error err
  | .ok repos =>
    match readPrDescriptionFile fs with
    | .error err => .error err
    | .ok (prTitle, prBody) =>
      .ok { Name := dirBasename, Repos := repos, PrTitle := prTitle, PrBody := prBody }

/-- The file system in which the only file is `filename`, holding `lines`. -/
def oneFile (filename : Str) (lines : List Str) : FileSystem :=
  fun name => if name = filename then some { lines := lines, scanErr := none } else none

/-! ## Vocabulary of the specification -/

/-- A manifest line that is an entry: non-empty and not beginning with `#`. -/
def isEntryLine (line : Str) : Bool :=
  decide (line ≠ [] ∧ line.head? ≠ some '#')

/-- The distinct elements of a list, each at the position of its first
occurrence. -/
def firstOccurrences : List Str → List Str
  | [] => []
  | x :: xs => x :: (firstOccurrences xs).filter (fun y => decide (y ≠ x))

/-- A manifest with a comment, a blank line and a repeated line. -/
def sampleManifest : List Str :=
  ["org/repo".toList, "# c".toList, [], "h/o/r@b".toList, "org/repo".toList, "a/b".toList]

/-- The entry that the line `h/o/r@b` loads as. -/
def sampleBranchRepo : Repo :=
  { Host := "h".toList, OrgName := "o".toList, RepoName := "r".toList,
    FullRepoName := "h/o/r".toList, BranchName := "b".toList }

/-- The entry that the line `org/repo` loads as. -/
def samplePlainRepo : Repo :=
  { Host := [], OrgName := "org".toList, RepoName := "repo".toList,
    FullRepoName := "org/repo".toList, BranchName := [] }

/-- The entries that `sampleManifest` loads as. -/
def sampleRepos : List Repo :=
  [{ Host := [], OrgName := "org".toList, RepoName := "repo".toList,
     FullRepoName := "org/repo".toList, BranchName := [] },
   sampleBranchRepo,
   { Host := [], OrgName := "a".toList, RepoName := "b".toList,
     FullRepoName := "a/b".toList, BranchName := [] }]

/-- A file system with the manifest `repos.txt` (the sample manifest) and the
description document `README.md`. -/
def sampleFileSystem : FileSystem :=
  fun name =>
    if name = "repos.txt".toList then some { lines := sampleManifest, scanErr := none }
    else if name = readmeFilename then
      some { lines := ["# Title".toList, "Body text".toList, "more".toList], scanErr := none }
    else none

/-- The last `/`-separated segment of a line. -/
def lastSegment (line : Str) : Str :=
  (strings.Split '/' line).getLastD []

/-- The `/`-separated segment of a line before the last one (the organisation
of a line of two or three segments). -/
def orgSegment (line : Str) : Str :=
  (strings.Split '/' line).dropLast.getLastD []

end campaign

open campaign

/-! ## Facts about the library functions -/

namespace strings

theorem Split_ne_nil (sep : Char) (s : Str) : Split sep s ≠ [] := by
  cases s with
  | nil => simp [Split]
  | cons c cs =>
    unfold Split
    split_ifs
    · simp
    · split <;> simp

theorem Split_cons_sep (sep : Char) (s : Str) : Split sep (sep :: s) = [] :: Split sep s := by
  simp [Split]

theorem Split_cons_ne (sep c : Char) (s : Str) (h : c ≠ sep) :
    ∃ seg segs, Split sep s = seg :: segs ∧ Split sep (c :: s) = (c :: seg) :: segs := by
  cases hs : Split sep s with
  | nil => exact absurd hs (Split_ne_nil sep s)
  | cons seg segs =>
    refine ⟨seg, segs, rfl, ?_⟩
    rw [Split, if_neg h, hs]

/-- Splitting a text without separator gives the text itself. -/
theorem Split_of_not_mem (sep : Char) (s : Str) (h : sep ∉ s) : Split sep s = [s] := by
  induction s with
  | nil => rfl
  | cons c cs ih =>
    simp only [List.mem_cons, not_or] at h
    have hc : c ≠ sep := fun e => h.1 e.symm
    rw [Split, if_neg hc, ih h.2]

/-- Splitting `a ++ sep ++ b`, with no separator in `a`, gives `a` and then
the split of `b`. -/
theorem Split_append_sep (sep : Char) (a b : Str) (h : sep ∉ a) :
    Split sep (a ++ sep :: b) = a :: Split sep b := by
  induction a with
  | nil => simp [Split]
  | cons c cs ih =>
    simp only [List.mem_cons, not_or] at h
    have hc : c ≠ sep := fun e => h.1 e.symm
    rw [List.cons_append, Split, if_neg hc, ih h.2]

/-- The number of segments is the number of separators plus one. -/
theorem Split_length (sep : Char) (s : Str) : (Split sep s).length = s.count sep + 1 := by
  induction s with
  | nil => rfl
  | cons c cs ih =>
    by_cases hc : c = sep
    · subst hc
      simp [Split_cons_sep, ih]
    · obtain ⟨seg, segs, h1, h2⟩ := Split_cons_ne sep c cs hc
      rw [h2, List.count_cons_of_ne (fun e => hc e.symm)]
      rw [h1] at ih
      simpa using ih

/-- No segment contains the separator. -/
theorem not_mem_of_mem_Split (sep : Char) (s seg : Str) (h : seg ∈ Split sep s) : sep ∉ seg := by
  induction s generalizing seg with
  | nil =>
    simp [Split] at h
    simp [h]
  | cons c cs ih =>
    by_cases hc : c = sep
    · subst hc
      rw [Split_cons_sep] at h
      rcases List.mem_cons.1 h with h | h
      · simp [h]
      · exact ih seg h
    · obtain ⟨seg1, segs, h1, h2⟩ := Split_cons_ne sep c cs hc
      rw [h2] at h
      rcases List.mem_cons.1 h with h | h
      · subst h
        have := ih seg1 (by rw [h1]; exact List.mem_cons_self _ _)
        simp only [List.mem_cons, not_or]
        exact ⟨fun e => hc e.symm, this⟩
      · exact ih seg (by rw [h1]; exact List.mem_cons_of_mem _ h)

/-- Joining the segments with the separator gives the text back. -/
theorem Join_Split (sep : Char) (s : Str) : Join (Split sep s) [sep] = s := by
  induction s with
  | nil => rfl
  | cons c cs ih =>
    by_cases hc : c = sep
    · subst hc
      rw [Split_cons_sep]
      cases hs : Split c cs with
      | nil => exact absurd hs (Split_ne_nil c cs)
      | cons seg segs =>
        rw [hs] at ih
        simp [Join, ih]
    · obtain ⟨seg, segs, h1, h2⟩ := Split_cons_ne sep c cs hc
      rw [h2]
      rw [h1] at ih
      cases segs with
      | nil => simpa [Join] using ih
      | cons seg2 rest =>
        simp only [Join, List.cons_append] at ih ⊢
        rw [ih]

theorem Split_eq_two (sep : Char) (s a b : Str) (h : Split sep s = [a, b]) :
    s = a ++ [sep] ++ b ∧ sep ∉ a ∧ sep ∉ b := by
  refine ⟨?_, ?_, ?_⟩
  · have := Join_Split sep s
    rw [h] at this
    simpa [Join] using this.symm
  · exact not_mem_of_mem_Split sep s a (by simp [h])
  · exact not_mem_of_mem_Split sep s b (by simp [h])

theorem Split_eq_three (sep : Char) (s a b c : Str) (h : Split sep s = [a, b, c]) :
    s = a ++ [sep] ++ b ++ [sep] ++ c ∧ sep ∉ a ∧ sep ∉ b ∧ sep ∉ c := by
  refine ⟨?_, ?_, ?_, ?_⟩
  · have := Join_Split sep s
    rw [h] at this
    simpa [Join] using this.symm
  · exact not_mem_of_mem_Split sep s a (by simp [h])
  · exact not_mem_of_mem_Split sep s b (by simp [h])
  · exact not_mem_of_mem_Split sep s c (by simp [h])

theorem TrimSuffix_append (a suffix : Str) : TrimSuffix (a ++ suffix) suffix = a := by
  have h : HasSuffix (a ++ suffix) suffix = true := by
    simp [HasSuffix]
  simp [TrimSuffix, h]

theorem HasPrefix_hash (s : Str) : HasPrefix s ['#'] = true ↔ s.head? = some '#' := by
  cases s with
  | nil => simp [HasPrefix]
  | cons c cs =>
    simp only [HasPrefix, List.isPrefixOf, List.head?_cons, Option.some.injEq, Bool.and_true]
    constructor
    · intro h
      exact (of_decide_eq_true h).symm
    · intro h
      exact decide_eq_true h.symm

end strings

/-! ## Facts about the repo list parser -/

namespace campaign

/-- The test of the loop of `readReposTxtFile` that decides whether a line is
looked at: the line is non-empty and does not begin with `#`. -/
theorem keep_iff (line : Str) :
    (!strings.HasPrefix line ['#'] && decide (line.length > 0)) = true ↔
      line ≠ [] ∧ line.head? ≠ some '#' := by
  rw [Bool.and_eq_true, Bool.not_eq_true', decide_eq_true_iff, ← Bool.not_eq_true,
    strings.HasPrefix_hash]
  constructor
  · rintro ⟨h1, h2⟩
    exact ⟨List.length_pos.1 h2, h1⟩
  · rintro ⟨h1, h2⟩
    exact ⟨h2, List.length_pos.2 h1⟩

/-- The branch switch for a last segment without `@`. -/
theorem splitBranch_no_at (line host orgName repoName : Str) (h : '@' ∉ repoName) :
    splitBranch line host orgName repoName =
      { Host := host, OrgName := orgName, RepoName := repoName,
        FullRepoName := line, BranchName := [] } := by
  simp [splitBranch, strings.Split_of_not_mem '@' repoName h]

/-- The branch switch for a last segment `name@branch`. -/
theorem splitBranch_one_at (pre host orgName name branch : Str)
    (hn : '@' ∉ name) (hb : '@' ∉ branch) :
    splitBranch (pre ++ name ++ ['@'] ++ branch) host orgName (name ++ ['@'] ++ branch) =
      { Host := host, OrgName := orgName, RepoName := name,
        FullRepoName := pre ++ name, BranchName := branch } := by
  have hs : strings.Split '@' (name ++ ['@'] ++ branch) = [name, branch] := by
    rw [List.append_assoc, List.singleton_append, strings.Split_append_sep '@' name branch hn,
      strings.Split_of_not_mem '@' branch hb]
  have ht : strings.TrimSuffix (pre ++ name ++ ['@'] ++ branch) (['@'] ++ branch) = pre ++ name := by
    rw [List.append_assoc (pre ++ name)]
    exact strings.TrimSuffix_append _ _
  simp only [splitBranch, hs, ht]

/-- A manifest of one kept line loads as the parse of that line. -/
theorem readReposTxtFile_one_line (fs : FileSystem) (filename line : Str)
    (hname : filename ≠ [])
    (hfile : fs filename = some { lines := [line], scanErr := none })
    (hne : line ≠ []) (hcomment : line.head? ≠ some '#') :
    readReposTxtFile fs filename =
      match parseEntry filename line with
      | .error e => .error e
      | .ok repo => .ok [repo] := by
  have hk := (keep_iff line).2 ⟨hne, hcomment⟩
  simp only [readReposTxtFile, if_neg hname, hfile, scanRepos, hk, if_true, List.not_mem_nil,
    if_false]
  cases parseEntry filename line <;> simp [scanRepos]

/-- A text with one separator splits in two. -/
theorem Split_of_count_one (sep : Char) (s : Str) (h : s.count sep = 1) :
    ∃ a b, strings.Split sep s = [a, b] := by
  have hl := strings.Split_length sep s
  rw [h] at hl
  exact List.length_eq_two.1 hl

/-- A text with two separators splits in three. -/
theorem Split_of_count_two (sep : Char) (s : Str) (h : s.count sep = 2) :
    ∃ a b c, strings.Split sep s = [a, b, c] := by
  have hl := strings.Split_length sep s
  rw [h] at hl
  exact List.length_eq_three.1 hl

end campaign

/-! ## The claims -/

/-- C1: a manifest made of one line that is non-empty, does not begin with `#`,
contains exactly one `/` and no `@` loads successfully as exactly one entry,
with empty Host, OrgName the text before the `/`, RepoName the text after it,
empty BranchName and FullRepoName the whole line. -/
theorem c1_two_segment_line (fs : FileSystem) (filename line : Str)
    (hname : filename ≠ [])
    (hfile : fs filename = some { lines := [line], scanErr := none })
    (hne : line ≠ []) (hcomment : line.head? ≠ some '#')
    (hslash : line.count '/' = 1) (hat : '@' ∉ line) :
    ∃ org repo, line = org ++ ['/'] ++ repo ∧
      readReposTxtFile fs filename =
        .ok [{ Host := [], OrgName := org, RepoName := repo,
               FullRepoName := line, BranchName := [] }] := by
  obtain ⟨org, repo, hsplit⟩ := Split_of_count_one '/' line hslash
  obtain ⟨hline, -, -⟩ := strings.Split_eq_two '/' line org repo hsplit
  have hrepo : '@' ∉ repo := fun h => hat (by rw [hline]; simp [h])
  refine ⟨org, repo, hline, ?_⟩
  rw [readReposTxtFile_one_line fs filename line hname hfile hne hcomment]
  simp only [parseEntry, hsplit, splitBranch_no_at line [] org repo hrepo]

/-- C1 at the manifest `org/repo`. -/
theorem c1_two_segment_line_witness :
    ∃ org repo, "org/repo".toList = org ++ ['/'] ++ repo ∧
      readReposTxtFile (oneFile "repos.txt".toList ["org/repo".toList]) "repos.txt".toList =
        .ok [{ Host := [], OrgName := org, RepoName := repo,
               FullRepoName := "org/repo".toList, BranchName := [] }] :=
  c1_two_segment_line (oneFile "repos.txt".toList ["org/repo".toList]) "repos.txt".toList
    "org/repo".toList (by decide) (by decide) (by decide) (by decide) (by decide) (by decide)

/-- C2: a manifest made of one line that is non-empty, does not begin with `#`,
contains exactly two `/` and no `@` loads successfully as exactly one entry,
whose Host, OrgName and RepoName are the first, second and third segment,
with empty BranchName and FullRepoName the whole line. -/
theorem c2_three_segment_line (fs : FileSystem) (filename line : Str)
    (hname : filename ≠ [])
    (hfile : fs filename = some { lines := [line], scanErr := none })
    (hne : line ≠ []) (hcomment : line.head? ≠ some '#')
    (hslash : line.count '/' = 2) (hat : '@' ∉ line) :
    ∃ host org repo, line = host ++ ['/'] ++ org ++ ['/'] ++ repo ∧
      '/' ∉ host ∧ '/' ∉ org ∧ '/' ∉ repo ∧
      readReposTxtFile fs filename =
        .ok [{ Host := host, OrgName := org, RepoName := repo,
               FullRepoName := line, BranchName := [] }] := by
  obtain ⟨host, org, repo, hsplit⟩ := Split_of_count_two '/' line hslash
  obtain ⟨hline, h1, h2, h3⟩ := strings.Split_eq_three '/' line host org repo hsplit
  have hrepo : '@' ∉ repo := fun h => hat (by rw [hline]; simp [h])
  refine ⟨host, org, repo, hline, h1, h2, h3, ?_⟩
  rw [readReposTxtFile_one_line fs filename line hname hfile hne hcomment]
  simp only [parseEntry, hsplit, splitBranch_no_at line host org repo hrepo]

/-- C2 at the manifest `host/org/repo`. -/
theorem c2_three_segment_line_witness :
    ∃ host org repo, "host/org/repo".toList = host ++ ['/'] ++ org ++ ['/'] ++ repo ∧
      '/' ∉ host ∧ '/' ∉ org ∧ '/' ∉ repo ∧
      readReposTxtFile (oneFile "repos.txt".toList ["host/org/repo".toList]) "repos.txt".toList =
        .ok [{ Host := host, OrgName := org, RepoName := repo,
               FullRepoName := "host/org/repo".toList, BranchName := [] }] :=
  c2_three_segment_line (oneFile "repos.txt".toList ["host/org/repo".toList]) "repos.txt".toList
    "host/org/repo".toList (by decide) (by decide) (by decide) (by decide) (by decide) (by decide)

/-- C3: a manifest made of one non-comment line with two or three segments
(`line = pre/last`, at most one `/` in `pre`, none in `last`) whose last
segment contains exactly one `@` loads as one entry whose RepoName is the part
of the last segment before the `@`, whose BranchName is everything after the
`@`, and whose FullRepoName is the line without the trailing `@` and branch. -/
theorem c3_branch_suffix (fs : FileSystem) (filename line pre last : Str)
    (hname : filename ≠ [])
    (hfile : fs filename = some { lines := [line], scanErr := none })
    (hcomment : line.head? ≠ some '#')
    (hline : line = pre ++ ['/'] ++ last) (hpre : pre.count '/' ≤ 1) (hlast : '/' ∉ last)
    (hat : last.count '@' = 1) :
    ∃ repo branch, last = repo ++ ['@'] ++ branch ∧
      ∃ r, readReposTxtFile fs filename = .ok [r] ∧
        r.RepoName = repo ∧ r.BranchName = branch ∧
        r.FullRepoName = pre ++ ['/'] ++ repo ∧
        line = r.FullRepoName ++ (['@'] ++ r.BranchName) := by
  obtain ⟨repo, branch, hsplit⟩ := Split_of_count_one '@' last hat
  obtain ⟨hl, hr, hb⟩ := strings.Split_eq_two '@' last repo branch hsplit
  have hne : line ≠ [] := by rw [hline]; simp
  refine ⟨repo, branch, hl, ?_⟩
  rw [readReposTxtFile_one_line fs filename line hname hfile hne hcomment]
  have hline2 : line = (pre ++ ['/']) ++ repo ++ ['@'] ++ branch := by
    rw [hline, hl]; simp
  have hlast2 : strings.Split '/' last = [last] := strings.Split_of_not_mem '/' last hlast
  rcases Nat.le_one_iff_eq_zero_or_eq_one.1 hpre with h0 | h1
  · have hp : '/' ∉ pre := List.count_eq_zero.1 h0
    have hs : strings.Split '/' line = [pre, last] := by
      rw [hline, List.append_assoc, List.singleton_append,
        strings.Split_append_sep '/' pre last hp, hlast2]
    simp only [parseEntry, hs]
    rw [hline2, hl, splitBranch_one_at (pre ++ ['/']) [] pre repo branch hr hb]
    simp
  · obtain ⟨host, org, hps⟩ := Split_of_count_one '/' pre h1
    obtain ⟨hpe, hh, ho⟩ := strings.Split_eq_two '/' pre host org hps
    have hs : strings.Split '/' line = [host, org, last] := by
      have he : line = host ++ '/' :: (org ++ '/' :: last) := by
        rw [hline, hpe]; simp
      rw [he, strings.Split_append_sep '/' host _ hh, strings.Split_append_sep '/' org last ho,
        hlast2]
    simp only [parseEntry, hs]
    rw [hline2, hl, splitBranch_one_at (pre ++ ['/']) host org repo branch hr hb]
    simp

/-- C3 at the manifest `org/repo@feature`: RepoName `repo`, BranchName
`feature`, FullRepoName `org/repo`. -/
theorem c3_branch_suffix_witness :
    ∃ repo branch, "repo@feature".toList = repo ++ ['@'] ++ branch ∧
      ∃ r, readReposTxtFile (oneFile "repos.txt".toList ["org/repo@feature".toList])
          "repos.txt".toList = .ok [r] ∧
        r.RepoName = repo ∧ r.BranchName = branch ∧
        r.FullRepoName = "org".toList ++ ['/'] ++ repo ∧
        "org/repo@feature".toList = r.FullRepoName ++ (['@'] ++ r.BranchName) :=
  c3_branch_suffix (oneFile "repos.txt".toList ["org/repo@feature".toList]) "repos.txt".toList
    "org/repo@feature".toList "org".toList "repo@feature".toList
    (by decide) (by decide) (by decide) (by decide) (by decide) (by decide) (by decide)

namespace campaign

theorem mem_firstOccurrences (l : List Str) (x : Str) : x ∈ firstOccurrences l ↔ x ∈ l := by
  induction l with
  | nil => simp [firstOccurrences]
  | cons y ys ih =>
    simp only [firstOccurrences, List.mem_cons, List.mem_filter, ih, decide_eq_true_eq]
    by_cases h : x = y <;> simp [h]

theorem nodup_firstOccurrences (l : List Str) : (firstOccurrences l).Nodup := by
  induction l with
  | nil => simp [firstOccurrences]
  | cons y ys ih =>
    simp only [firstOccurrences, List.nodup_cons, List.mem_filter, decide_eq_true_eq]
    exact ⟨fun h => h.2 rfl, ih.filter _⟩

theorem indexOf_cons_same (y : Str) (ys : List Str) : (y :: ys).indexOf y = 0 := by
  simp [List.indexOf_cons]

theorem indexOf_cons_other (y x : Str) (ys : List Str) (h : x ≠ y) :
    (y :: ys).indexOf x = ys.indexOf x + 1 := by
  have : (y == x) = false := by simpa using fun e => h e.symm
  simp [List.indexOf_cons, this]

/-- The elements of `firstOccurrences l` come in the order of their first
positions in `l`. -/
theorem pairwise_firstOccurrences (l : List Str) :
    (firstOccurrences l).Pairwise (fun a b => l.indexOf a < l.indexOf b) := by
  induction l with
  | nil => simp [firstOccurrences]
  | cons y ys ih =>
    simp only [firstOccurrences, List.pairwise_cons, List.mem_filter, decide_eq_true_eq]
    constructor
    · rintro b ⟨-, hb⟩
      rw [indexOf_cons_same, indexOf_cons_other y b ys hb]
      exact Nat.succ_pos _
    · have hsub : ((firstOccurrences ys).filter (fun z => decide (z ≠ y))).Pairwise
          (fun a b => ys.indexOf a < ys.indexOf b) := ih.filter _
      refine List.Pairwise.imp_of_mem ?_ hsub
      intro a b ha hb hab
      have ha2 : a ≠ y := by simpa using (List.mem_filter.1 ha).2
      have hb2 : b ≠ y := by simpa using (List.mem_filter.1 hb).2
      rw [indexOf_cons_other y a ys ha2, indexOf_cons_other y b ys hb2]
      exact Nat.succ_lt_succ hab

/-- Taking first occurrences commutes with filtering. -/
theorem firstOccurrences_filter (p : Str → Bool) (l : List Str) :
    firstOccurrences (l.filter p) = (firstOccurrences l).filter p := by
  induction l with
  | nil => simp [firstOccurrences]
  | cons y ys ih =>
    by_cases hp : p y = true
    · simp only [List.filter_cons_of_pos hp, firstOccurrences, ih, List.filter_filter]
      congr 1
      apply List.filter_congr
      intro x _
      exact Bool.and_comm _ _
    · rw [List.filter_cons_of_neg hp, ih]
      simp only [firstOccurrences, List.filter_cons_of_neg hp, List.filter_filter]
      apply List.filter_congr
      intro x _
      by_cases hx : x = y
      · subst hx
        simp [hp]
      · simp [hx]

theorem isEntryLine_iff (line : Str) :
    isEntryLine line = true ↔ line ≠ [] ∧ line.head? ≠ some '#' := by
  simp [isEntryLine]

/-- A line of two or three segments parses. -/
theorem parseEntry_ok (filename line : Str)
    (h : (strings.Split '/' line).length = 2 ∨ (strings.Split '/' line).length = 3) :
    ∃ r, parseEntry filename line = .ok r := by
  rcases h with h | h
  · obtain ⟨a, b, hs⟩ := List.length_eq_two.1 h
    exact ⟨splitBranch line [] a b, by simp only [parseEntry, hs]⟩
  · obtain ⟨a, b, c, hs⟩ := List.length_eq_three.1 h
    exact ⟨splitBranch line a b c, by simp only [parseEntry, hs]⟩

/-- A line with another number of segments is a parse error. -/
theorem parseEntry_error (filename line : Str)
    (h2 : (strings.Split '/' line).length ≠ 2) (h3 : (strings.Split '/' line).length ≠ 3) :
    parseEntry filename line = .error (.parseEntry filename line) := by
  unfold parseEntry
  split
  · rename_i h; rw [h] at h2; simp at h2
  · rename_i h; rw [h] at h3; simp at h3
  · rfl

/-- The result of the loop when it succeeds: the entries built so far, then
the parses of the distinct entry lines that are not in `uniq`, in the order of
their first occurrences. -/
theorem scanRepos_ok (filename : Str) (lines uniq : List Str) (repos out : List Repo)
    (h : scanRepos filename lines uniq repos = .ok out) :
    ∃ parsed, out = repos ++ parsed ∧
      List.Forall₂ (fun l r => parseEntry filename l = .ok r)
        ((firstOccurrences (lines.filter isEntryLine)).filter (fun l => decide (l ∉ uniq)))
        parsed := by
  induction lines generalizing uniq repos with
  | nil =>
    simp only [scanRepos, Except.ok.injEq] at h
    exact ⟨[], by simp [h], by simp [firstOccurrences]⟩
  | cons line rest ih =>
    by_cases hk : (!strings.HasPrefix line ['#'] && decide (line.length > 0)) = true
    · have he : isEntryLine line = true := (isEntryLine_iff line).2 ((keep_iff line).1 hk)
      by_cases hu : line ∈ uniq
      · simp only [scanRepos, hk, if_true, hu] at h
        obtain ⟨parsed, h1, h2⟩ := ih uniq repos h
        refine ⟨parsed, h1, ?_⟩
        have : ((firstOccurrences ((line :: rest).filter isEntryLine)).filter
            (fun l => decide (l ∉ uniq))) =
            ((firstOccurrences (rest.filter isEntryLine)).filter (fun l => decide (l ∉ uniq))) := by
          simp only [List.filter_cons_of_pos he, firstOccurrences, List.filter_filter]
          rw [List.filter_cons_of_neg (by simpa using hu), List.filter_filter]
          apply List.filter_congr
          intro x _
          by_cases hx : x = line
          · subst hx; simp [hu]
          · simp [hx]
        rw [this]
        exact h2
      · simp only [scanRepos, hk, if_true, hu, if_false] at h
        cases hp : parseEntry filename line with
        | error e => rw [hp] at h; simp at h
        | ok r =>
          rw [hp] at h
          obtain ⟨parsed, h1, h2⟩ := ih (line :: uniq) (repos ++ [r]) h
          refine ⟨r :: parsed, by simp [h1], ?_⟩
          have : ((firstOccurrences ((line :: rest).filter isEntryLine)).filter
              (fun l => decide (l ∉ uniq))) =
              line :: ((firstOccurrences (rest.filter isEntryLine)).filter
                (fun l => decide (l ∉ line :: uniq))) := by
            simp only [List.filter_cons_of_pos he, firstOccurrences, List.filter_filter]
            rw [List.filter_cons_of_pos (by simpa using hu), List.filter_filter]
            congr 1
            apply List.filter_congr
            intro x _
            by_cases hx : x = line
            · subst hx; simp
            · simp [hx]
          rw [this]
          exact List.Forall₂.cons hp h2
    · have he : ¬ isEntryLine line = true := fun he =>
        hk ((keep_iff line).2 ((isEntryLine_iff line).1 he))
      simp only [scanRepos, hk] at h
      rw [List.filter_cons_of_neg he]
      exact ih uniq repos h

/-- A successful load is a successful loop started with nothing seen and
nothing built. -/
theorem readReposTxtFile_ok (fs : FileSystem) (filename : Str) (file : FileData)
    (repos : List Repo) (hfile : fs filename = some file)
    (hok : readReposTxtFile fs filename = .ok repos) :
    scanRepos filename file.lines [] [] = .ok repos := by
  unfold readReposTxtFile at hok
  split_ifs at hok
  rw [hfile] at hok
  simp only at hok
  cases hs : scanRepos filename file.lines [] [] with
  | error e => rw [hs] at hok; simp at hok
  | ok out =>
    rw [hs] at hok
    cases hc : file.scanErr with
    | some c => rw [hc] at hok; simp at hok
    | none => rw [hc] at hok; simpa using hok

/-- The entries of a successful load, against the distinct entry lines of the
manifest. -/
theorem readReposTxtFile_forall₂ (fs : FileSystem) (filename : Str) (file : FileData)
    (repos : List Repo) (hfile : fs filename = some file)
    (hok : readReposTxtFile fs filename = .ok repos) :
    List.Forall₂ (fun l r => parseEntry filename l = .ok r)
      (firstOccurrences (file.lines.filter isEntryLine)) repos := by
  obtain ⟨parsed, h1, h2⟩ :=
    scanRepos_ok filename file.lines [] [] repos (readReposTxtFile_ok fs filename file repos hfile hok)
  simp only [List.nil_append] at h1
  subst h1
  simpa using h2

end campaign

/-- C4: when the load of a manifest succeeds, the output has exactly one entry
per distinct raw line among the lines that are non-empty and do not begin with
`#`: with `ds` the list of those distinct lines (no repetition, the same
members, ordered by first position in the manifest), the output is as long as
`ds` and its i-th entry is the parse of the i-th line of `ds`. -/
theorem c4_one_entry_per_distinct_line (fs : FileSystem) (filename : Str) (file : FileData)
    (repos : List Repo) (hfile : fs filename = some file)
    (hok : readReposTxtFile fs filename = .ok repos) :
    ∃ ds : List Str, ds = firstOccurrences (file.lines.filter isEntryLine) ∧
      ds.Nodup ∧
      (∀ l, l ∈ ds ↔ l ∈ file.lines ∧ l ≠ [] ∧ l.head? ≠ some '#') ∧
      ds.Pairwise (fun a b => file.lines.indexOf a < file.lines.indexOf b) ∧
      repos.length = ds.length ∧
      ∀ (i : Nat) (h1 : i < ds.length) (h2 : i < repos.length),
        parseEntry filename (ds.get ⟨i, h1⟩) = .ok (repos.get ⟨i, h2⟩) := by
  refine ⟨_, rfl, nodup_firstOccurrences _, ?_, ?_, ?_⟩
  · intro l
    rw [mem_firstOccurrences, List.mem_filter, isEntryLine_iff]
  · rw [firstOccurrences_filter]
    exact (pairwise_firstOccurrences file.lines).filter _
  · have h := List.forall₂_iff_get.1 (readReposTxtFile_forall₂ fs filename file repos hfile hok)
    exact ⟨h.1.symm, h.2⟩

/-- C4 at a manifest with a comment, a blank line and a repeated line. -/
theorem c4_one_entry_per_distinct_line_witness :
    ∃ ds : List Str, ds = firstOccurrences (sampleManifest.filter isEntryLine) ∧
      ds.Nodup ∧
      (∀ l, l ∈ ds ↔ l ∈ sampleManifest ∧ l ≠ [] ∧ l.head? ≠ some '#') ∧
      ds.Pairwise (fun a b => sampleManifest.indexOf a < sampleManifest.indexOf b) ∧
      sampleRepos.length = ds.length ∧
      ∀ (i : Nat) (h1 : i < ds.length) (h2 : i < sampleRepos.length),
        parseEntry "repos.txt".toList (ds.get ⟨i, h1⟩) = .ok (sampleRepos.get ⟨i, h2⟩) :=
  c4_one_entry_per_distinct_line (oneFile "repos.txt".toList sampleManifest) "repos.txt".toList
    { lines := sampleManifest, scanErr := none } sampleRepos (by decide) (by decide)

namespace campaign

/-- The loop stops with a parse error at the first entry line that has neither
two nor three segments, whatever was seen and built before. -/
theorem scanRepos_first_bad (filename bad : Str) (post : List Str)
    (hne : bad ≠ []) (hcomment : bad.head? ≠ some '#')
    (h2 : (strings.Split '/' bad).length ≠ 2) (h3 : (strings.Split '/' bad).length ≠ 3)
    (pre uniq : List Str) (repos : List Repo)
    (hfirst : ∀ l ∈ pre, l ≠ [] → l.head? ≠ some '#' →
      (strings.Split '/' l).length = 2 ∨ (strings.Split '/' l).length = 3)
    (hu : bad ∉ uniq) :
    scanRepos filename (pre ++ bad :: post) uniq repos = .error (.parseEntry filename bad) := by
  induction pre generalizing uniq repos with
  | nil =>
    have hk := (keep_iff bad).2 ⟨hne, hcomment⟩
    simp only [List.nil_append, scanRepos, hk, if_true, hu, if_false,
      parseEntry_error filename bad h2 h3]
  | cons l rest ih =>
    have hrest : ∀ x ∈ rest, x ≠ [] → x.head? ≠ some '#' →
        (strings.Split '/' x).length = 2 ∨ (strings.Split '/' x).length = 3 :=
      fun x hx => hfirst x (List.mem_cons_of_mem _ hx)
    by_cases hk : (!strings.HasPrefix l ['#'] && decide (l.length > 0)) = true
    · by_cases hl : l ∈ uniq
      · simp only [List.cons_append, scanRepos, hk, if_true, hl]
        exact ih uniq repos hrest hu
      · have hkl := (keep_iff l).1 hk
        have hseg := hfirst l (List.mem_cons_self _ _) hkl.1 hkl.2
        obtain ⟨r, hr⟩ := parseEntry_ok filename l hseg
        have hbl : bad ≠ l := by
          intro e
          subst e
          rcases hseg with h | h
          · exact h2 h
          · exact h3 h
        simp only [List.cons_append, scanRepos, hk, if_true, hl, if_false, hr]
        exact ih (l :: uniq) (repos ++ [r]) hrest (by simp [hbl, hu])
    · simp only [List.cons_append, scanRepos, hk]
      exact ih uniq repos hrest hu

end campaign

/-- C5: when a manifest contains an entry line (non-empty, not beginning with
`#`) whose number of `/`-separated segments is neither 2 nor 3, the load fails
with the parse error built from the manifest file name and the first such
line, and no entries are returned, whatever lines come before or after. -/
theorem c5_malformed_line_aborts (fs : FileSystem) (filename : Str) (file : FileData)
    (pre post : List Str) (bad : Str)
    (hname : filename ≠ []) (hfile : fs filename = some file)
    (hlines : file.lines = pre ++ bad :: post)
    (hne : bad ≠ []) (hcomment : bad.head? ≠ some '#')
    (h2 : (strings.Split '/' bad).length ≠ 2) (h3 : (strings.Split '/' bad).length ≠ 3)
    (hfirst : ∀ l ∈ pre, l ≠ [] → l.head? ≠ some '#' →
      (strings.Split '/' l).length = 2 ∨ (strings.Split '/' l).length = 3) :
    readReposTxtFile fs filename = .error (.parseEntry filename bad) ∧
      (Err.parseEntry filename bad).message =
        "unable to parse entry in ".toList ++ filename ++ " file: ".toList ++ bad := by
  refine ⟨?_, rfl⟩
  simp only [readReposTxtFile, if_neg hname, hfile, hlines,
    scanRepos_first_bad filename bad post hne hcomment h2 h3 pre [] [] hfirst (List.not_mem_nil _)]

/-- C5 at the manifest `org/repo`, `a/b/c/d`, `x/y`: the valid first line does
not save the load. -/
theorem c5_malformed_line_aborts_witness :
    readReposTxtFile
        (oneFile "repos.txt".toList ["org/repo".toList, "a/b/c/d".toList, "x/y".toList])
        "repos.txt".toList =
      .error (.parseEntry "repos.txt".toList "a/b/c/d".toList) ∧
      (Err.parseEntry "repos.txt".toList "a/b/c/d".toList).message =
        "unable to parse entry in ".toList ++ "repos.txt".toList ++ " file: ".toList ++
          "a/b/c/d".toList :=
  c5_malformed_line_aborts
    (oneFile "repos.txt".toList ["org/repo".toList, "a/b/c/d".toList, "x/y".toList])
    "repos.txt".toList
    { lines := ["org/repo".toList, "a/b/c/d".toList, "x/y".toList], scanErr := none }
    ["org/repo".toList] ["x/y".toList] "a/b/c/d".toList
    (by decide) (by decide) (by decide) (by decide) (by decide) (by decide) (by decide)
    (by decide)

namespace campaign

/-- The three outcomes of the branch switch, by the number of `@` in the last
segment: none, exactly one (`last = name@branch`), or more. -/
theorem splitBranch_cases (line host org last : Str) :
    ('@' ∉ last ∧ splitBranch line host org last =
        { Host := host, OrgName := org, RepoName := last,
          FullRepoName := line, BranchName := [] }) ∨
    (∃ name branch, last = name ++ ['@'] ++ branch ∧ '@' ∉ name ∧ '@' ∉ branch ∧
      splitBranch line host org last =
        { Host := host, OrgName := org, RepoName := name,
          FullRepoName := strings.TrimSuffix line (['@'] ++ branch), BranchName := branch }) ∨
    ('@' ∈ last ∧ splitBranch line host org last =
        { Host := host, OrgName := org, RepoName := last,
          FullRepoName := [], BranchName := [] }) := by
  by_cases h0 : '@' ∈ last
  · by_cases h1 : last.count '@' = 1
    · obtain ⟨name, branch, hs⟩ := Split_of_count_one '@' last h1
      obtain ⟨hl, hn, hb⟩ := strings.Split_eq_two '@' last name branch hs
      exact Or.inr (Or.inl ⟨name, branch, hl, hn, hb, by simp only [splitBranch, hs]⟩)
    · refine Or.inr (Or.inr ⟨h0, ?_⟩)
      have hlen := strings.Split_length '@' last
      have hpos : 0 < last.count '@' := List.count_pos_iff.2 h0
      unfold splitBranch
      split
      · rename_i h; rw [h] at hlen; simp at hlen; omega
      · rename_i h; rw [h] at hlen; simp at hlen; omega
      · rfl
  · exact Or.inl ⟨h0, splitBranch_no_at line host org last h0⟩

/-- What a successful parse of a line says about the line: it has two segments
`org/last` (and the host is empty) or three segments `host/org/last`, and the
entry is the branch switch applied to them. -/
theorem parseEntry_eq_ok (filename line : Str) (r : Repo) (h : parseEntry filename line = .ok r) :
    ∃ host org last, r = splitBranch line host org last ∧ '/' ∉ org ∧ '/' ∉ last ∧
      orgSegment line = org ∧ lastSegment line = last ∧
      ((host = [] ∧ line = org ++ ['/'] ++ last) ∨
        line = host ++ ['/'] ++ org ++ ['/'] ++ last) := by
  unfold parseEntry at h
  split at h
  · rename_i org last hs
    obtain ⟨hl, ho, hla⟩ := strings.Split_eq_two '/' line org last hs
    simp only [Except.ok.injEq] at h
    exact ⟨[], org, last, h.symm, ho, hla, by simp [orgSegment, hs], by simp [lastSegment, hs],
      Or.inl ⟨rfl, hl⟩⟩
  · rename_i host org last hs
    obtain ⟨hl, -, ho, hla⟩ := strings.Split_eq_three '/' line host org last hs
    simp only [Except.ok.injEq] at h
    exact ⟨host, org, last, h.symm, ho, hla, by simp [orgSegment, hs], by simp [lastSegment, hs],
      Or.inr hl⟩
  · simp at h

/-- Every entry of a successful load is the parse of an entry line of the
manifest. -/
theorem mem_repos_parse (fs : FileSystem) (filename : Str) (file : FileData)
    (repos : List Repo) (hfile : fs filename = some file)
    (hok : readReposTxtFile fs filename = .ok repos) (r : Repo) (hr : r ∈ repos) :
    ∃ line ∈ file.lines, line ≠ [] ∧ line.head? ≠ some '#' ∧
      parseEntry filename line = .ok r := by
  have h := readReposTxtFile_forall₂ fs filename file repos hfile hok
  have key : ∀ (ds : List Str) (rs : List Repo),
      List.Forall₂ (fun l r => parseEntry filename l = .ok r) ds rs →
      ∀ r ∈ rs, ∃ l ∈ ds, parseEntry filename l = .ok r := by
    intro ds rs hf
    induction hf with
    | nil => simp
    | cons hab _ ih =>
      intro r hr
      rcases List.mem_cons.1 hr with e | hr
      · subst e
        exact ⟨_, List.mem_cons_self _ _, hab⟩
      · obtain ⟨l, hl, hp⟩ := ih r hr
        exact ⟨l, List.mem_cons_of_mem _ hl, hp⟩
  obtain ⟨l, hl, hp⟩ := key _ _ h r hr
  rw [mem_firstOccurrences, List.mem_filter, isEntryLine_iff] at hl
  exact ⟨l, hl.1, hl.2.1, hl.2.2, hp⟩

end campaign

/-- C6, refuted as stated: the manifest made of the line `/repo` loads
successfully, and its entry has an empty OrgName. -/
theorem c6_counterexample :
    ¬ (∀ repos, readReposTxtFile (oneFile "repos.txt".toList ["/repo".toList])
          "repos.txt".toList = .ok repos →
        ∀ r ∈ repos, r.OrgName ≠ [] ∧ r.RepoName ≠ []) := by
  intro h
  have h1 := h [{ Host := [], OrgName := [], RepoName := "repo".toList,
                  FullRepoName := "/repo".toList, BranchName := [] }] (by decide) _
    (List.mem_singleton_self _)
  exact h1.1 rfl

/-- C6, amended: when the load of a manifest succeeds and every entry line of
the manifest has a non-empty organisation segment and a last segment that is
non-empty and does not begin with `@`, every entry of the output has a
non-empty OrgName and a non-empty RepoName. -/
theorem c6_names_nonempty (fs : FileSystem) (filename : Str) (file : FileData)
    (repos : List Repo) (hfile : fs filename = some file)
    (hok : readReposTxtFile fs filename = .ok repos)
    (hwf : ∀ line ∈ file.lines, line ≠ [] → line.head? ≠ some '#' →
      orgSegment line ≠ [] ∧ lastSegment line ≠ [] ∧ (lastSegment line).head? ≠ some '@') :
    ∀ r ∈ repos, r.OrgName ≠ [] ∧ r.RepoName ≠ [] := by
  intro r hr
  obtain ⟨line, hmem, hne, hc, hp⟩ := mem_repos_parse fs filename file repos hfile hok r hr
  obtain ⟨host, org, last, hrb, -, -, horg, hlast, -⟩ := parseEntry_eq_ok filename line r hp
  obtain ⟨h1, h2, h3⟩ := hwf line hmem hne hc
  rw [horg] at h1
  rw [hlast] at h2 h3
  rcases splitBranch_cases line host org last with ⟨-, hs⟩ | ⟨name, branch, hl, -, -, hs⟩ | ⟨-, hs⟩
  · rw [hrb, hs]; exact ⟨h1, h2⟩
  · rw [hrb, hs]
    refine ⟨h1, ?_⟩
    intro hn
    simp only at hn
    rw [hl, hn] at h3
    simp at h3
  · rw [hrb, hs]; exact ⟨h1, h2⟩

/-- C6, amended, at the entry of the line `h/o/r@b` of the sample manifest. -/
theorem c6_names_nonempty_witness :
    sampleBranchRepo.OrgName ≠ [] ∧ sampleBranchRepo.RepoName ≠ [] :=
  c6_names_nonempty (oneFile "repos.txt".toList sampleManifest) "repos.txt".toList
    { lines := sampleManifest, scanErr := none } sampleRepos (by decide) (by decide) (by decide)
    sampleBranchRepo (by decide)

/-- C7, refuted as stated: the manifest made of the line `/org/repo` loads
successfully as an entry with an empty Host whose FullRepoName is `/org/repo`,
not OrgName + `/` + RepoName. -/
theorem c7_counterexample :
    ¬ (∀ repos, readReposTxtFile (oneFile "repos.txt".toList ["/org/repo".toList])
          "repos.txt".toList = .ok repos →
        ∀ r ∈ repos,
          (r.Host = [] → r.FullRepoName = r.OrgName ++ ['/'] ++ r.RepoName) ∧
          (r.Host ≠ [] →
            r.FullRepoName = r.Host ++ ['/'] ++ r.OrgName ++ ['/'] ++ r.RepoName)) := by
  intro h
  have h1 := h [{ Host := [], OrgName := "org".toList, RepoName := "repo".toList,
                  FullRepoName := "/org/repo".toList, BranchName := [] }] (by decide) _
    (List.mem_singleton_self _)
  exact absurd (h1.1 rfl) (by decide)

namespace campaign

/-- A successful parse, with the number of `/` of the line: one `/` for a line
`org/last`, whose entry has an empty Host, and two for a line
`host/org/last`. -/
theorem parseEntry_count (filename line : Str) (r : Repo)
    (h : parseEntry filename line = .ok r) :
    ∃ host org last, r = splitBranch line host org last ∧
      ((line.count '/' = 1 ∧ host = [] ∧ line = org ++ ['/'] ++ last) ∨
        (line.count '/' = 2 ∧ line = host ++ ['/'] ++ org ++ ['/'] ++ last)) := by
  have hlen := strings.Split_length '/' line
  unfold parseEntry at h
  split at h
  · rename_i org last hs
    obtain ⟨hl, -, -⟩ := strings.Split_eq_two '/' line org last hs
    simp only [Except.ok.injEq] at h
    rw [hs] at hlen
    exact ⟨[], org, last, h.symm, Or.inl ⟨by simpa using hlen.symm, rfl, hl⟩⟩
  · rename_i host org last hs
    obtain ⟨hl, -, -, -⟩ := strings.Split_eq_three '/' line host org last hs
    simp only [Except.ok.injEq] at h
    rw [hs] at hlen
    exact ⟨host, org, last, h.symm, Or.inr ⟨by simpa using hlen.symm, hl⟩⟩
  · simp at h

/-- The FullRepoName of the parse of a line, when the RepoName of the parse
has no `@`: it is the line without its branch suffix, and it is built from the
other fields according to the number of segments of the line. -/
theorem parseEntry_full_name (filename line : Str) (r : Repo)
    (hp : parseEntry filename line = .ok r) (hat : '@' ∉ r.RepoName) :
    (line = r.FullRepoName ∨ line = r.FullRepoName ++ ['@'] ++ r.BranchName) ∧
    ((line.count '/' = 1 ∧ r.Host = [] ∧
        r.FullRepoName = r.OrgName ++ ['/'] ++ r.RepoName) ∨
      (line.count '/' = 2 ∧
        r.FullRepoName = r.Host ++ ['/'] ++ r.OrgName ++ ['/'] ++ r.RepoName)) := by
  obtain ⟨host, org, last, hrb, hline⟩ := parseEntry_count filename line r hp
  rcases splitBranch_cases line host org last with ⟨-, hs⟩ | ⟨name, branch, hl, -, -, hs⟩ | ⟨h2, hs⟩
  · rw [hs] at hrb
    subst hrb
    refine ⟨Or.inl rfl, ?_⟩
    rcases hline with ⟨hc, hh, hline⟩ | ⟨hc, hline⟩
    · exact Or.inl ⟨hc, hh, hline⟩
    · exact Or.inr ⟨hc, hline⟩
  · have ht : ∀ pre : Str, line = pre ++ last →
        strings.TrimSuffix line (['@'] ++ branch) = pre ++ name := by
      intro pre hpre
      rw [hpre, hl, ← List.append_assoc, ← List.append_assoc, List.append_assoc (pre ++ name)]
      exact strings.TrimSuffix_append _ _
    have hsuffix : ∀ pre : Str, line = pre ++ last →
        line = strings.TrimSuffix line (['@'] ++ branch) ++ ['@'] ++ branch := by
      intro pre hpre
      rw [ht pre hpre]
      rw [hpre, hl]
      simp
    rw [hs] at hrb
    subst hrb
    rcases hline with ⟨hc, hh, hline⟩ | ⟨hc, hline⟩
    · exact ⟨Or.inr (hsuffix (org ++ ['/']) hline), Or.inl ⟨hc, hh, ht (org ++ ['/']) hline⟩⟩
    · exact ⟨Or.inr (hsuffix (host ++ ['/'] ++ org ++ ['/']) hline),
        Or.inr ⟨hc, ht (host ++ ['/'] ++ org ++ ['/']) hline⟩⟩
  · rw [hs] at hrb
    subst hrb
    exact absurd h2 hat

end campaign

/-- C7, amended: when the load of a manifest succeeds, every entry whose
RepoName contains no `@` (its line had at most one `@` in the last segment)
is the parse of an entry line of the manifest, and for every line that it is
the parse of, its FullRepoName is that line without the branch suffix (the
line itself, or the line without the trailing `@` + BranchName) and is built
from the other fields by the number of segments of the line: for a line of two
segments Host is empty and FullRepoName is OrgName + `/` + RepoName; for a
line of three segments FullRepoName is Host + `/` + OrgName + `/` + RepoName.
Hence FullRepoName is Host + `/` + OrgName + `/` + RepoName when Host is
non-empty, and when Host is empty it is OrgName + `/` + RepoName or `/` +
OrgName + `/` + RepoName (line of three segments, the first one empty). -/
theorem c7_full_repo_name (fs : FileSystem) (filename : Str) (file : FileData)
    (repos : List Repo) (hfile : fs filename = some file)
    (hok : readReposTxtFile fs filename = .ok repos)
    (r : Repo) (hr : r ∈ repos) (hat : '@' ∉ r.RepoName) :
    (∃ line ∈ file.lines, line ≠ [] ∧ line.head? ≠ some '#' ∧
      parseEntry filename line = .ok r) ∧
    (∀ line : Str, parseEntry filename line = .ok r →
      (line = r.FullRepoName ∨ line = r.FullRepoName ++ ['@'] ++ r.BranchName) ∧
      ((line.count '/' = 1 ∧ r.Host = [] ∧
          r.FullRepoName = r.OrgName ++ ['/'] ++ r.RepoName) ∨
        (line.count '/' = 2 ∧
          r.FullRepoName = r.Host ++ ['/'] ++ r.OrgName ++ ['/'] ++ r.RepoName))) ∧
    (r.Host ≠ [] → r.FullRepoName = r.Host ++ ['/'] ++ r.OrgName ++ ['/'] ++ r.RepoName) ∧
    (r.Host = [] → r.FullRepoName = r.OrgName ++ ['/'] ++ r.RepoName ∨
      r.FullRepoName = ['/'] ++ r.OrgName ++ ['/'] ++ r.RepoName) := by
  obtain ⟨line, hmem, hne, hc, hp⟩ := mem_repos_parse fs filename file repos hfile hok r hr
  have htie := (parseEntry_full_name filename line r hp hat).2
  refine ⟨⟨line, hmem, hne, hc, hp⟩,
    fun l hl => parseEntry_full_name filename l r hl hat, ?_, ?_⟩
  · intro hh
    rcases htie with ⟨-, h0, -⟩ | ⟨-, hfull⟩
    · exact absurd h0 hh
    · exact hfull
  · intro hh
    rcases htie with ⟨-, -, hfull⟩ | ⟨-, hfull⟩
    · exact Or.inl hfull
    · refine Or.inr ?_
      rw [hh] at hfull
      simpa using hfull

/-- C7, amended, at two entries of the sample manifest: the entry of the line
`org/repo` (two segments, empty Host) and the entry of the line `h/o/r@b`
(three segments, with a branch). -/
theorem c7_full_repo_name_witness :
    (("org/repo".toList = samplePlainRepo.FullRepoName ∨
        "org/repo".toList =
          samplePlainRepo.FullRepoName ++ ['@'] ++ samplePlainRepo.BranchName) ∧
      (("org/repo".toList.count '/' = 1 ∧ samplePlainRepo.Host = [] ∧
          samplePlainRepo.FullRepoName =
            samplePlainRepo.OrgName ++ ['/'] ++ samplePlainRepo.RepoName) ∨
        ("org/repo".toList.count '/' = 2 ∧
          samplePlainRepo.FullRepoName =
            samplePlainRepo.Host ++ ['/'] ++ samplePlainRepo.OrgName ++ ['/'] ++
              samplePlainRepo.RepoName))) ∧
    (("h/o/r@b".toList = sampleBranchRepo.FullRepoName ∨
        "h/o/r@b".toList =
          sampleBranchRepo.FullRepoName ++ ['@'] ++ sampleBranchRepo.BranchName) ∧
      (("h/o/r@b".toList.count '/' = 1 ∧ sampleBranchRepo.Host = [] ∧
          sampleBranchRepo.FullRepoName =
            sampleBranchRepo.OrgName ++ ['/'] ++ sampleBranchRepo.RepoName) ∨
        ("h/o/r@b".toList.count '/' = 2 ∧
          sampleBranchRepo.FullRepoName =
            sampleBranchRepo.Host ++ ['/'] ++ sampleBranchRepo.OrgName ++ ['/'] ++
              sampleBranchRepo.RepoName))) :=
  ⟨(c7_full_repo_name (oneFile "repos.txt".toList sampleManifest) "repos.txt".toList
      { lines := sampleManifest, scanErr := none } sampleRepos (by decide) (by decide)
      samplePlainRepo (by decide) (by decide)).2.1 "org/repo".toList (by decide),
   (c7_full_repo_name (oneFile "repos.txt".toList sampleManifest) "repos.txt".toList
      { lines := sampleManifest, scanErr := none } sampleRepos (by decide) (by decide)
      sampleBranchRepo (by decide) (by decide)).2.1 "h/o/r@b".toList (by decide)⟩

/-! ## Facts about `path.Join` -/

namespace path

theorem cleanLoop_nil (rooted : Bool) (fuel : Nat) (out : Str) (dotdot : Nat) :
    cleanLoop rooted fuel [] out dotdot = out := by
  cases fuel <;> rfl

theorem cleanLoop_slash (rooted : Bool) (fuel : Nat) (p out : Str) (dotdot : Nat) :
    cleanLoop rooted (fuel + 1) ('/' :: p) out dotdot = cleanLoop rooted fuel p out dotdot := by
  simp [cleanLoop]

theorem takeWhile_elem (seg rest : Str) (hs : '/' ∉ seg) (hr : rest = [] ∨ rest.head? = some '/') :
    (seg ++ rest).takeWhile (fun x => x != '/') = seg := by
  induction seg with
  | nil =>
    rcases hr with h | h
    · simp [h]
    · cases rest with
      | nil => simp
      | cons c cs =>
        simp only [List.head?_cons, Option.some.injEq] at h
        simp [h]
  | cons c cs ih =>
    simp only [List.mem_cons, not_or] at hs
    have hc : (c != '/') = true := by simpa using fun e => hs.1 (Eq.symm e)
    simp [List.takeWhile, hc, ih hs.2]

theorem dropWhile_elem (seg rest : Str) (hs : '/' ∉ seg) (hr : rest = [] ∨ rest.head? = some '/') :
    (seg ++ rest).dropWhile (fun x => x != '/') = rest := by
  induction seg with
  | nil =>
    rcases hr with h | h
    · simp [h]
    · cases rest with
      | nil => simp
      | cons c cs =>
        simp only [List.head?_cons, Option.some.injEq] at h
        simp [h]
  | cons c cs ih =>
    simp only [List.mem_cons, not_or] at hs
    have hc : (c != '/') = true := by simpa using fun e => hs.1 (Eq.symm e)
    simp [List.dropWhile, hc, ih hs.2]

/-- One iteration of the loop of `Clean` at a real path element `seg` (not
empty, without slash, neither `.` nor `..`) of a relative path: a slash is
written when something was written before, then the element is copied. -/
theorem cleanLoop_elem (fuel : Nat) (seg rest out : Str) (dotdot : Nat)
    (hne : seg ≠ []) (hs : '/' ∉ seg) (hdot : seg ≠ ['.']) (hdotdot : seg ≠ ['.', '.'])
    (hr : rest = [] ∨ rest.head? = some '/') :
    cleanLoop false (fuel + 1) (seg ++ rest) out dotdot =
      cleanLoop false fuel rest
        ((if out.length != 0 then out ++ ['/'] else out) ++ seg) dotdot := by
  have ht := takeWhile_elem seg rest hs hr
  have hd := dropWhile_elem seg rest hs hr
  cases seg with
  | nil => exact absurd rfl hne
  | cons c p =>
    simp only [List.mem_cons, not_or] at hs
    have hc : c ≠ '/' := fun e => hs.1 e.symm
    have h1 : ¬ (c = '.' ∧ (p ++ rest = [] ∨ (p ++ rest).head? = some '/')) := by
      rintro ⟨hc1, h⟩
      cases p with
      | nil => exact hdot (by rw [hc1])
      | cons d q =>
        rcases h with h | h
        · simp at h
        · simp only [List.cons_append, List.head?_cons, Option.some.injEq] at h
          exact hs.2 (by simp [h])
    have h2 : ¬ (c = '.' ∧ (p ++ rest).head? = some '.' ∧
        ((p ++ rest).tail = [] ∨ (p ++ rest).tail.head? = some '/')) := by
      rintro ⟨hc1, hp1, h⟩
      cases p with
      | nil => exact hdot (by rw [hc1])
      | cons d q =>
        simp only [List.cons_append, List.head?_cons, Option.some.injEq] at hp1
        cases q with
        | nil => exact hdotdot (by rw [hc1, hp1])
        | cons e q2 =>
          rcases h with h | h
          · simp at h
          · simp only [List.cons_append, List.tail_cons, List.head?_cons, Option.some.injEq] at h
            exact hs.2 (by simp [h])
    rw [List.cons_append, cleanLoop, if_neg hc, if_neg h1, if_neg h2]
    rw [← List.cons_append, ht, hd]
    simp

/-- The iteration at a real path element when nothing was written yet. -/
theorem cleanLoop_elem_first (fuel : Nat) (seg rest : Str) (dotdot : Nat)
    (hne : seg ≠ []) (hs : '/' ∉ seg) (hdot : seg ≠ ['.']) (hdotdot : seg ≠ ['.', '.'])
    (hr : rest = [] ∨ rest.head? = some '/') :
    cleanLoop false (fuel + 1) (seg ++ rest) [] dotdot = cleanLoop false fuel rest seg dotdot := by
  rw [cleanLoop_elem fuel seg rest [] dotdot hne hs hdot hdotdot hr]
  simp

/-- The iteration at a real path element when something was written before. -/
theorem cleanLoop_elem_next (fuel : Nat) (seg rest out : Str) (dotdot : Nat) (ho : out ≠ [])
    (hne : seg ≠ []) (hs : '/' ∉ seg) (hdot : seg ≠ ['.']) (hdotdot : seg ≠ ['.', '.'])
    (hr : rest = [] ∨ rest.head? = some '/') :
    cleanLoop false (fuel + 1) (seg ++ rest) out dotdot =
      cleanLoop false fuel rest (out ++ ['/'] ++ seg) dotdot := by
  rw [cleanLoop_elem fuel seg rest out dotdot hne hs hdot hdotdot hr]
  have : (out.length != 0) = true := by
    simpa using ho
  simp [this]

/-- Joining `work` with two real path elements changes nothing: the result is
`work/org/dir`. -/
theorem Join_work (org dir : Str)
    (ho : org ≠ []) (hos : '/' ∉ org) (ho1 : org ≠ ['.']) (ho2 : org ≠ ['.', '.'])
    (hd : dir ≠ []) (hds : '/' ∉ dir) (hd1 : dir ≠ ['.']) (hd2 : dir ≠ ['.', '.']) :
    Join ["work".toList, org, dir] = "work/".toList ++ org ++ ['/'] ++ dir := by
  have hw : ("work".toList : Str) = ['w', 'o', 'r', 'k'] := rfl
  have hsum : ¬ ((["work".toList, org, dir].map List.length).sum = 0) := by
    simp
  have hbuf : (["work".toList, org, dir].foldl
      (fun buf e =>
        if buf.length > 0 ∨ e ≠ [] then (if buf.length > 0 then buf ++ ['/'] else buf) ++ e
        else buf) []) = "work".toList ++ ('/' :: (org ++ ('/' :: dir))) := by
    simp [List.foldl]
  have hlen : ("work".toList ++ ('/' :: (org ++ ('/' :: dir)))).length =
      (org.length + dir.length + 1) + 5 := by
    simp
    omega
  have hloop : ∀ fuel, cleanLoop false (fuel + 5)
      ("work".toList ++ ('/' :: (org ++ ('/' :: dir)))) [] 0 =
      "work".toList ++ ['/'] ++ org ++ ['/'] ++ dir := by
    intro fuel
    rw [cleanLoop_elem_first (fuel + 4) "work".toList ('/' :: (org ++ ('/' :: dir))) 0
      (by simp [hw]) (by simp [hw]) (by simp [hw]) (by simp [hw]) (Or.inr rfl)]
    rw [cleanLoop_slash]
    rw [cleanLoop_elem_next (fuel + 2) org ('/' :: dir) "work".toList 0 (by simp [hw])
      ho hos ho1 ho2 (Or.inr rfl)]
    rw [cleanLoop_slash]
    have h := cleanLoop_elem_next fuel dir [] ("work".toList ++ ['/'] ++ org) 0 (by simp [hw])
      hd hds hd1 hd2 (Or.inl rfl)
    rw [List.append_nil] at h
    rw [h, cleanLoop_nil]
  have hhead : ("work".toList ++ ('/' :: (org ++ ('/' :: dir)))).head? ≠ some '/' := by
    simp [hw]
  have hnil : ("work".toList ++ ('/' :: (org ++ ('/' :: dir)))) ≠ [] := by
    simp [hw]
  rw [Join, if_neg hsum, hbuf, Clean, if_neg hnil]
  simp only [if_neg hhead, hlen, hloop]
  simp [hw]

end path

namespace campaign

/-- The OrgName, RepoName and BranchName of a parsed entry contain no slash. -/
theorem parseEntry_no_slash (filename line : Str) (r : Repo)
    (h : parseEntry filename line = .ok r) :
    '/' ∉ r.OrgName ∧ '/' ∉ r.RepoName ∧ '/' ∉ r.BranchName := by
  obtain ⟨host, org, last, hrb, ho, hl, -, -, -⟩ := parseEntry_eq_ok filename line r h
  rcases splitBranch_cases line host org last with ⟨-, hs⟩ | ⟨name, branch, hlb, -, -, hs⟩ | ⟨-, hs⟩
  · rw [hrb, hs]; exact ⟨ho, hl, by simp⟩
  · rw [hrb, hs]
    rw [hlb] at hl
    simp only [List.mem_append, not_or] at hl
    exact ⟨ho, hl.1.1, hl.2⟩
  · rw [hrb, hs]; exact ⟨ho, hl, by simp⟩

/-- The directory name that `FullRepoPath` builds is the one `DirName`
returns. -/
theorem FullRepoPath_eq (r : Repo) :
    r.FullRepoPath = path.Join ["work".toList, r.OrgName, r.DirName] := by
  unfold Repo.FullRepoPath Repo.DirName
  by_cases h : r.BranchName = []
  · simp [h]
  · simp [h]

end campaign

/-- C8, refuted as stated: the manifest made of the line `/repo` loads
successfully, and the FullRepoPath of its entry is `work/repo`, not `work/` +
OrgName + `/` + DirName, which is `work//repo`. -/
theorem c8_counterexample :
    ¬ (∀ repos, readReposTxtFile (oneFile "repos.txt".toList ["/repo".toList])
          "repos.txt".toList = .ok repos →
        ∀ r ∈ repos, r.FullRepoPath = "work/".toList ++ r.OrgName ++ ['/'] ++ r.DirName) := by
  intro h
  have h1 := h [{ Host := [], OrgName := [], RepoName := "repo".toList,
                  FullRepoName := "/repo".toList, BranchName := [] }] (by decide) _
    (List.mem_singleton_self _)
  exact absurd h1 (by decide)

/-- The line `../..` loads as an entry whose FullRepoPath is `..`, outside of
`work`. -/
theorem FullRepoPath_dotdot :
    (readReposTxtFile (oneFile "repos.txt".toList ["../..".toList]) "repos.txt".toList).map
        (List.map Repo.FullRepoPath) = .ok ["..".toList] := by
  decide

/-- C8, amended: for every entry of a successful load whose OrgName and
DirName are real path elements (not empty, not `.`, not `..`), FullRepoPath
is `work/` + OrgName + `/` + DirName. -/
theorem c8_full_repo_path (fs : FileSystem) (filename : Str) (file : FileData)
    (repos : List Repo) (hfile : fs filename = some file)
    (hok : readReposTxtFile fs filename = .ok repos)
    (r : Repo) (hr : r ∈ repos)
    (horg : r.OrgName ≠ [] ∧ r.OrgName ≠ ['.'] ∧ r.OrgName ≠ ['.', '.'])
    (hdir : r.DirName ≠ [] ∧ r.DirName ≠ ['.'] ∧ r.DirName ≠ ['.', '.']) :
    r.FullRepoPath = "work/".toList ++ r.OrgName ++ ['/'] ++ r.DirName := by
  obtain ⟨line, -, -, -, hp⟩ := mem_repos_parse fs filename file repos hfile hok r hr
  obtain ⟨h1, h2, h3⟩ := parseEntry_no_slash filename line r hp
  have hds : '/' ∉ r.DirName := by
    unfold Repo.DirName
    split_ifs
    · exact h2
    · simp only [List.mem_append, not_or]
      exact ⟨⟨h2, by decide⟩, h3⟩
  rw [FullRepoPath_eq]
  exact path.Join_work r.OrgName r.DirName horg.1 h1 horg.2.1 horg.2.2 hdir.1 hds hdir.2.1 hdir.2.2

/-- C8, amended, at the entry of the line `h/o/r@b` of the sample manifest:
its path is `work/o/r-b`. -/
theorem c8_full_repo_path_witness :
    sampleBranchRepo.FullRepoPath =
      "work/".toList ++ sampleBranchRepo.OrgName ++ ['/'] ++ sampleBranchRepo.DirName :=
  c8_full_repo_path (oneFile "repos.txt".toList sampleManifest) "repos.txt".toList
    { lines := sampleManifest, scanErr := none } sampleRepos (by decide) (by decide)
    sampleBranchRepo (by decide) (by decide) (by decide)

/-! ## Facts about the description extractor -/

namespace campaign

/-- Once the title is set, the loop appends every remaining line to the
body. -/
theorem scanDescription_titled (rest : List Str) (prTitle : Str) (prBodyLines : List Str)
    (h : prTitle ≠ []) :
    scanDescription rest prTitle prBodyLines = (prTitle, prBodyLines ++ rest) := by
  induction rest generalizing prBodyLines with
  | nil => simp [scanDescription]
  | cons line rest ih =>
    rw [scanDescription, if_neg h, ih]
    simp

end campaign

/-- C9, refuted as stated: in the document `#`, `Title`, `Body` the first line
strips to nothing, and the extraction returns the title `Title` and the body
`Body`, not the stripped first line and the two lines after it. -/
theorem c9_counterexample :
    ¬ (∀ title body,
        readPrDescriptionFile
          (oneFile readmeFilename ["#".toList, "Title".toList, "Body".toList]) =
            .ok (title, body) →
        title = strings.TrimLeft "#".toList ['#', ' '] ∧
          body = strings.Join ["Title".toList, "Body".toList] ['\n']) := by
  intro h
  have h1 := h "Title".toList "Body".toList (by decide)
  exact absurd h1.1 (by decide)

/-- C9, amended: for every document whose first line does not strip to
nothing, the extraction returns as title the first line without its leading
`#` and space characters, and as body all the lines after the first, in order,
joined with single newlines. -/
theorem c9_title_and_body (fs : FileSystem) (first : Str) (rest : List Str)
    (hfile : fs readmeFilename = some { lines := first :: rest, scanErr := none })
    (htitle : strings.TrimLeft first ['#', ' '] ≠ []) :
    readPrDescriptionFile fs =
      .ok (strings.TrimLeft first ['#', ' '], strings.Join rest ['\n']) := by
  simp only [readPrDescriptionFile, hfile, scanDescription, if_true,
    scanDescription_titled rest _ [] htitle, List.nil_append]

/-- C9, amended, at the document `# Title`, `Body text`: title `Title`, body
`Body text`. -/
theorem c9_title_and_body_witness :
    strings.TrimLeft "# Title".toList ['#', ' '] = "Title".toList ∧
    strings.Join ["Body text".toList] ['\n'] = "Body text".toList ∧
    readPrDescriptionFile (oneFile readmeFilename ["# Title".toList, "Body text".toList]) =
      .ok (strings.TrimLeft "# Title".toList ['#', ' '],
        strings.Join ["Body text".toList] ['\n']) :=
  ⟨by decide, by decide,
    c9_title_and_body (oneFile readmeFilename ["# Title".toList, "Body text".toList])
      "# Title".toList ["Body text".toList] (by decide) (by decide)⟩

/-- C10, refuted as stated: the document made of the single line `#` yields an
empty title. -/
theorem c10_counterexample :
    ¬ (∀ title body,
        readPrDescriptionFile (oneFile readmeFilename ["#".toList]) = .ok (title, body) →
        title ≠ [] ∧ body = []) := by
  intro h
  exact (h [] [] (by decide)).1 rfl

/-- C10, amended: a document of exactly one line yields an empty body and, as
title, the line without its leading `#` and space characters; that title is
non-empty exactly when the line has a character other than `#` and space. -/
theorem c10_single_line (fs : FileSystem) (line : Str)
    (hfile : fs readmeFilename = some { lines := [line], scanErr := none }) :
    readPrDescriptionFile fs = .ok (strings.TrimLeft line ['#', ' '], []) ∧
      (strings.TrimLeft line ['#', ' '] ≠ [] ↔ ∃ c ∈ line, c ≠ '#' ∧ c ≠ ' ') := by
  constructor
  · simp [readPrDescriptionFile, hfile, scanDescription, strings.Join]
  · rw [Ne, strings.TrimLeft, List.dropWhile_eq_nil_iff]
    simp

/-- C10, amended, at the document made of the single line `# Title`. -/
theorem c10_single_line_witness :
    readPrDescriptionFile (oneFile readmeFilename ["# Title".toList]) =
        .ok (strings.TrimLeft "# Title".toList ['#', ' '], []) ∧
      (strings.TrimLeft "# Title".toList ['#', ' '] ≠ [] ↔
        ∃ c ∈ "# Title".toList, c ≠ '#' ∧ c ≠ ' ') :=
  c10_single_line (oneFile readmeFilename ["# Title".toList]) "# Title".toList (by decide)

/-! ## Skipped lines -/

namespace campaign

/-- The loop passes over a line that is empty or begins with `#` without
changing its state, wherever the line stands. -/
theorem scanRepos_skip (filename skip : Str) (hskip : skip = [] ∨ skip.head? = some '#')
    (pre post uniq : List Str) (repos : List Repo) :
    scanRepos filename (pre ++ skip :: post) uniq repos =
      scanRepos filename (pre ++ post) uniq repos := by
  have hk : ¬ ((!strings.HasPrefix skip ['#'] && decide (skip.length > 0)) = true) := by
    rw [keep_iff]
    rintro ⟨h1, h2⟩
    rcases hskip with h | h
    · exact h1 h
    · exact h2 h
  induction pre generalizing uniq repos with
  | nil => simp only [List.nil_append, scanRepos, hk]; rfl
  | cons l rest ih =>
    simp only [List.cons_append, scanRepos]
    split_ifs
    · exact ih uniq repos
    · cases parseEntry filename l with
      | error e => rfl
      | ok r => exact ih (l :: uniq) (repos ++ [r])
    · exact ih uniq repos

/-- The loop over lines that are all empty or comments builds nothing. -/
theorem scanRepos_all_skipped (filename : Str) (lines uniq : List Str) (repos : List Repo)
    (h : ∀ l ∈ lines, l = [] ∨ l.head? = some '#') :
    scanRepos filename lines uniq repos = .ok repos := by
  induction lines with
  | nil => rfl
  | cons l rest ih =>
    have hrest : ∀ x ∈ rest, x = [] ∨ x.head? = some '#' :=
      fun x hx => h x (List.mem_cons_of_mem _ hx)
    have := scanRepos_skip filename l (h l (List.mem_cons_self _ _)) [] rest uniq repos
    simp only [List.nil_append] at this
    rw [this]
    exact ih hrest

end campaign

/-- C11: inserting a line that is empty or begins with `#` at any position of
a manifest (equivalently, deleting it) does not change the result of the load,
be it the entries or the error; and a manifest all of whose lines are empty or
comments, in particular a manifest without lines, loads as the empty
sequence. -/
theorem c11_skipped_lines (fs fs2 : FileSystem) (filename skip : Str) (pre post : List Str)
    (scanErr : Option Str)
    (hskip : skip = [] ∨ skip.head? = some '#')
    (hfile : fs filename = some { lines := pre ++ post, scanErr := scanErr })
    (hfile2 : fs2 filename = some { lines := pre ++ skip :: post, scanErr := scanErr }) :
    readReposTxtFile fs2 filename = readReposTxtFile fs filename ∧
      ∀ (fs3 : FileSystem) (lines : List Str), filename ≠ [] →
        fs3 filename = some { lines := lines, scanErr := none } →
        (∀ l ∈ lines, l = [] ∨ l.head? = some '#') →
        readReposTxtFile fs3 filename = .ok [] := by
  constructor
  · simp only [readReposTxtFile, hfile, hfile2, scanRepos_skip filename skip hskip pre post [] []]
  · intro fs3 lines hname h3 hall
    simp only [readReposTxtFile, if_neg hname, h3, scanRepos_all_skipped filename lines [] [] hall]

/-- C11 at the sample manifest, with a comment inserted after its third line,
and at a manifest of a comment and an empty line. -/
theorem c11_skipped_lines_witness :
    readReposTxtFile
        (oneFile "repos.txt".toList (sampleManifest.take 3 ++ "#x".toList :: sampleManifest.drop 3))
        "repos.txt".toList =
      readReposTxtFile
        (oneFile "repos.txt".toList (sampleManifest.take 3 ++ sampleManifest.drop 3))
        "repos.txt".toList ∧
    readReposTxtFile (oneFile "repos.txt".toList ["# only".toList, []]) "repos.txt".toList =
      .ok [] :=
  ⟨(c11_skipped_lines
      (oneFile "repos.txt".toList (sampleManifest.take 3 ++ sampleManifest.drop 3))
      (oneFile "repos.txt".toList (sampleManifest.take 3 ++ "#x".toList :: sampleManifest.drop 3))
      "repos.txt".toList "#x".toList (sampleManifest.take 3) (sampleManifest.drop 3) none
      (by decide) (by decide) (by decide)).1,
   (c11_skipped_lines
      (oneFile "repos.txt".toList (sampleManifest.take 3 ++ sampleManifest.drop 3))
      (oneFile "repos.txt".toList (sampleManifest.take 3 ++ "#x".toList :: sampleManifest.drop 3))
      "repos.txt".toList "#x".toList (sampleManifest.take 3) (sampleManifest.drop 3) none
      (by decide) (by decide) (by decide)).2
      (oneFile "repos.txt".toList ["# only".toList, []]) ["# only".toList, []]
      (by decide) (by decide) (by decide)⟩

/-- C12: `DirName` is RepoName when BranchName is empty and RepoName + `-` +
BranchName otherwise, and it depends on RepoName and BranchName only; `repo`
without branch gives `repo`, with branch `dev` it gives `repo-dev`. -/
theorem c12_dir_name (r : Repo) :
    (r.DirName = if r.BranchName = [] then r.RepoName
      else r.RepoName ++ "-".toList ++ r.BranchName) ∧
    (∀ host org full : Str,
      Repo.DirName ⟨host, org, r.RepoName, full, r.BranchName⟩ = r.DirName) ∧
    (∀ host org full : Str,
      Repo.DirName ⟨host, org, "repo".toList, full, []⟩ = "repo".toList ∧
      Repo.DirName ⟨host, org, "repo".toList, full, "dev".toList⟩ = "repo-dev".toList) := by
  refine ⟨rfl, fun _ _ _ => rfl, fun _ _ _ => ⟨rfl, rfl⟩⟩

/-- C13: `VisibleName` is FullRepoName when BranchName is empty and
FullRepoName + `@` + BranchName otherwise, and it depends on FullRepoName and
BranchName only; `org/repo` without branch gives `org/repo`, with branch `dev`
it gives `org/repo@dev`. -/
theorem c13_visible_name (r : Repo) :
    (r.VisibleName = if r.BranchName = [] then r.FullRepoName
      else r.FullRepoName ++ "@".toList ++ r.BranchName) ∧
    (∀ host org repo : Str,
      Repo.VisibleName ⟨host, org, repo, r.FullRepoName, r.BranchName⟩ = r.VisibleName) ∧
    (∀ host org repo : Str,
      Repo.VisibleName ⟨host, org, repo, "org/repo".toList, []⟩ = "org/repo".toList ∧
      Repo.VisibleName ⟨host, org, repo, "org/repo".toList, "dev".toList⟩ =
        "org/repo@dev".toList) := by
  refine ⟨rfl, fun _ _ _ => rfl, fun _ _ _ => ⟨rfl, rfl⟩⟩

/-! ## The title stripping -/

namespace strings

/-- The text that `TrimLeft` removes: the leading characters of `s` that
belong to `cutset`. -/
theorem TrimLeft_prefix (s cutset : Str) :
    s = s.takeWhile (fun c => decide (c ∈ cutset)) ++ TrimLeft s cutset := by
  simp [TrimLeft]

/-- What `TrimLeft` leaves does not begin with a character of `cutset`. -/
theorem TrimLeft_head (s cutset : Str) (c : Char) (hc : c ∈ cutset) :
    (TrimLeft s cutset).head? ≠ some c := by
  intro h
  have h1 := List.head?_dropWhile_not (fun c => decide (c ∈ cutset)) s
  rw [TrimLeft] at h
  rw [h] at h1
  simp [hc] at h1

/-- No prefix made of characters of `cutset` is longer than the one that
`TrimLeft` removes. -/
theorem TrimLeft_longest (cutset pre rest : Str) (h : ∀ c ∈ pre, c ∈ cutset) :
    pre.length ≤ ((pre ++ rest).takeWhile (fun c => decide (c ∈ cutset))).length := by
  induction pre with
  | nil => simp
  | cons c cs ih =>
    have hc : decide (c ∈ cutset) = true := decide_eq_true (h c (List.mem_cons_self _ _))
    have ht : ((c :: cs) ++ rest).takeWhile (fun c => decide (c ∈ cutset)) =
        c :: (cs ++ rest).takeWhile (fun c => decide (c ∈ cutset)) := by
      rw [List.cons_append, List.takeWhile_cons]
      simp only [hc, if_true]
    rw [ht]
    simp only [List.length_cons]
    exact Nat.succ_le_succ (ih (fun x hx => h x (List.mem_cons_of_mem _ hx)))

end strings

/-- C14: the title stripping of a first line `s` removes exactly the longest
prefix of `s` made of `#` and space characters: `s` is that prefix followed by
the title, the title begins with neither `#` nor space, no prefix of `s` made
of `#` and spaces is longer, and a line that begins with neither is returned
unchanged.  `## Foo` and `##Foo` give `Foo`; a tab and later `#` and spaces
are kept. -/
theorem c14_title_stripping (s : Str) :
    (scanDescription [s] [] []).1 = strings.TrimLeft s ['#', ' '] ∧
    (∃ pre : Str, s = pre ++ strings.TrimLeft s ['#', ' '] ∧
      (∀ c ∈ pre, c = '#' ∨ c = ' ') ∧
      (∀ pre2 rest : Str, s = pre2 ++ rest → (∀ c ∈ pre2, c = '#' ∨ c = ' ') →
        pre2.length ≤ pre.length)) ∧
    (strings.TrimLeft s ['#', ' ']).head? ≠ some '#' ∧
    (strings.TrimLeft s ['#', ' ']).head? ≠ some ' ' ∧
    (s.head? ≠ some '#' → s.head? ≠ some ' ' → strings.TrimLeft s ['#', ' '] = s) ∧
    strings.TrimLeft "## Foo".toList ['#', ' '] = "Foo".toList ∧
    strings.TrimLeft "##Foo".toList ['#', ' '] = "Foo".toList ∧
    strings.TrimLeft " # \tFoo # bar ".toList ['#', ' '] = "\tFoo # bar ".toList := by
  refine ⟨by simp [scanDescription], ⟨_, strings.TrimLeft_prefix s ['#', ' '], ?_, ?_⟩,
    strings.TrimLeft_head s _ '#' (by simp), strings.TrimLeft_head s _ ' ' (by simp), ?_,
    by decide, by decide, by decide⟩
  · intro c hc
    simpa using List.mem_takeWhile_imp hc
  · intro pre2 rest hs hall
    rw [hs]
    exact strings.TrimLeft_longest ['#', ' '] pre2 rest (fun c hc => by simpa using hall c hc)
  · intro h1 h2
    cases s with
    | nil => rfl
    | cons c cs =>
      simp only [List.head?_cons, ne_eq, Option.some.injEq] at h1 h2
      simp [strings.TrimLeft, List.dropWhile, h1, h2]

/-! ## The campaign assembler -/

/-- C15: `OpenCampaign` fails with the error of the manifest load when that
load fails, whatever the rest of the file system (the description document
included) holds; it fails with the error of
the description extraction when the manifest load succeeds and the extraction
fails; when both succeed it returns the descriptor made of the two results;
and a descriptor is returned only when both succeed. -/
theorem c15_open_campaign (dir : Str) (fs : FileSystem) (options : CampaignOptions) :
    (∀ err, readReposTxtFile fs options.RepoFilename = .error err →
      ∀ fs2 : FileSystem, fs2 options.RepoFilename = fs options.RepoFilename →
        OpenCampaign dir fs2 options = .error err) ∧
    (∀ repos err, readReposTxtFile fs options.RepoFilename = .ok repos →
      readPrDescriptionFile fs = .error err →
      OpenCampaign dir fs options = .error err) ∧
    (∀ repos prTitle prBody, readReposTxtFile fs options.RepoFilename = .ok repos →
      readPrDescriptionFile fs = .ok (prTitle, prBody) →
      OpenCampaign dir fs options =
        .ok ⟨filepath.Base dir, repos, prTitle, prBody⟩) ∧
    (∀ c, OpenCampaign dir fs options = .ok c →
      readReposTxtFile fs options.RepoFilename = .ok c.Repos ∧
      readPrDescriptionFile fs = .ok (c.PrTitle, c.PrBody)) := by
  refine ⟨?_, ?_, ?_, ?_⟩
  · intro err h fs2 h2
    have hsame : readReposTxtFile fs2 options.RepoFilename =
        readReposTxtFile fs options.RepoFilename := by
      simp only [readReposTxtFile, h2]
    simp only [OpenCampaign, hsame, h]
  · intro repos err h1 h2
    simp only [OpenCampaign, h1, h2]
  · intro repos prTitle prBody h1 h2
    simp only [OpenCampaign, h1, h2]
  · intro c h
    unfold OpenCampaign at h
    cases h1 : readReposTxtFile fs options.RepoFilename with
    | error e => rw [h1] at h; simp at h
    | ok repos =>
      cases h2 : readPrDescriptionFile fs with
      | error e => rw [h1, h2] at h; simp at h
      | ok tb =>
        obtain ⟨t, b⟩ := tb
        rw [h1, h2] at h
        simp only [Except.ok.injEq] at h
        subst h
        exact ⟨rfl, rfl⟩

/-- C15 at the sample file system (a descriptor is returned), at a file system
without manifest (the open error of the manifest) and at a file system without
description document (the open error of the document). -/
theorem c15_open_campaign_witness :
    OpenCampaign "/home/u/camp".toList sampleFileSystem NewCampaignOptions =
      .ok ⟨"camp".toList, sampleRepos, "Title".toList, "Body text\nmore".toList⟩ ∧
    OpenCampaign "/home/u/camp".toList (oneFile readmeFilename ["# Title".toList])
      NewCampaignOptions = .error (.openRepoFile "repos.txt".toList) ∧
    OpenCampaign "/home/u/camp".toList (oneFile "repos.txt".toList sampleManifest)
      NewCampaignOptions = .error .openReadme :=
  ⟨(c15_open_campaign "/home/u/camp".toList sampleFileSystem NewCampaignOptions).2.2.1
      sampleRepos "Title".toList "Body text\nmore".toList (by decide) (by decide),
   (c15_open_campaign "/home/u/camp".toList (oneFile readmeFilename ["# Title".toList])
      NewCampaignOptions).1 (.openRepoFile "repos.txt".toList) (by decide)
      (oneFile readmeFilename ["# Title".toList]) rfl,
   (c15_open_campaign "/home/u/camp".toList (oneFile "repos.txt".toList sampleManifest)
      NewCampaignOptions).2.1 sampleRepos .openReadme (by decide) (by decide)⟩

/-- C16: with an empty manifest file name the load fails with the
no-file-name error in every file system; with a non-empty name that cannot be
opened it fails with the open error, whose message contains the name; with a
file that opens but whose reading ends in a scanner error after lines that
parse, it fails with the error that wraps the scanner error, whose message
contains the name too; an error result carries no entries. -/
theorem c16_filename_errors (fs : FileSystem) :
    readReposTxtFile fs [] = .error .noReposFilename ∧
    (∀ filename : Str, filename ≠ [] → fs filename = none →
      readReposTxtFile fs filename = .error (.openRepoFile filename) ∧
      (Err.openRepoFile filename).message = "unable to open repo file: ".toList ++ filename ∧
      filename <:+: (Err.openRepoFile filename).message) ∧
    (∀ (filename : Str) (lines : List Str) (cause : Str) (repos : List Repo),
      filename ≠ [] → fs filename = some { lines := lines, scanErr := some cause } →
      scanRepos filename lines [] [] = .ok repos →
      readReposTxtFile fs filename = .error (.scanRepoFile filename cause) ∧
      filename <:+: (Err.scanRepoFile filename cause).message) := by
  refine ⟨rfl, ?_, ?_⟩
  · intro filename hname hnone
    refine ⟨by simp only [readReposTxtFile, if_neg hname, hnone], rfl, ?_⟩
    exact ⟨"unable to open repo file: ".toList, [], by simp [Err.message]⟩
  · intro filename lines cause repos hname hfile hscan
    refine ⟨by simp only [readReposTxtFile, if_neg hname, hfile, hscan], ?_⟩
    exact ⟨"unable to open ".toList, " file: ".toList ++ cause, by simp [Err.message]⟩

/-- C16 at the file system that holds the sample manifest only: the empty name
and the name `missing.txt`. -/
theorem c16_filename_errors_witness :
    readReposTxtFile (oneFile "repos.txt".toList sampleManifest) [] = .error .noReposFilename ∧
    readReposTxtFile (oneFile "repos.txt".toList sampleManifest) "missing.txt".toList =
      .error (.openRepoFile "missing.txt".toList) ∧
    (Err.openRepoFile "missing.txt".toList).message =
      "unable to open repo file: missing.txt".toList ∧
    "missing.txt".toList <:+: (Err.openRepoFile "missing.txt".toList).message :=
  ⟨(c16_filename_errors (oneFile "repos.txt".toList sampleManifest)).1,
   ((c16_filename_errors (oneFile "repos.txt".toList sampleManifest)).2.1
      "missing.txt".toList (by decide) (by decide)).1,
   ((c16_filename_errors (oneFile "repos.txt".toList sampleManifest)).2.1
      "missing.txt".toList (by decide) (by decide)).2.1,
   ((c16_filename_errors (oneFile "repos.txt".toList sampleManifest)).2.1
      "missing.txt".toList (by decide) (by decide)).2.2⟩

/-! ## Branch suffixes and visible names -/

namespace campaign

/-- The branch switch by the number of `@` in the last segment: none, exactly
one (`last = name@branch`), or at least two. -/
theorem splitBranch_by_count (line host org last : Str) :
    (last.count '@' = 0 ∧ splitBranch line host org last =
        { Host := host, OrgName := org, RepoName := last,
          FullRepoName := line, BranchName := [] }) ∨
    (last.count '@' = 1 ∧ ∃ name branch, last = name ++ ['@'] ++ branch ∧
      '@' ∉ name ∧ '@' ∉ branch ∧
      splitBranch line host org last =
        { Host := host, OrgName := org, RepoName := name,
          FullRepoName := strings.TrimSuffix line (['@'] ++ branch), BranchName := branch }) ∨
    (2 ≤ last.count '@' ∧ splitBranch line host org last =
        { Host := host, OrgName := org, RepoName := last,
          FullRepoName := [], BranchName := [] }) := by
  rcases splitBranch_cases line host org last with ⟨h, hs⟩ | ⟨name, branch, hl, hn, hb, hs⟩ | ⟨h, hs⟩
  · exact Or.inl ⟨List.count_eq_zero.2 h, hs⟩
  · refine Or.inr (Or.inl ⟨?_, name, branch, hl, hn, hb, hs⟩)
    rw [hl]
    simp [List.count_append, List.count_eq_zero.2 hn, List.count_eq_zero.2 hb]
  · by_cases h1 : last.count '@' = 1
    · obtain ⟨name, branch, hsp⟩ := Split_of_count_one '@' last h1
      obtain ⟨hl, hn, hb⟩ := strings.Split_eq_two '@' last name branch hsp
      exact Or.inr (Or.inl ⟨h1, name, branch, hl, hn, hb, by simp only [splitBranch, hsp]⟩)
    · have hpos : 0 < last.count '@' := List.count_pos_iff.2 h
      exact Or.inr (Or.inr ⟨by omega, hs⟩)

/-- The segments of a line `pre/last` with at most one `/` in `pre` and none
in `last`: the parse is the branch switch on the last segment. -/
theorem parseEntry_segments (filename line pre last : Str)
    (hline : line = pre ++ ['/'] ++ last) (hpre : pre.count '/' ≤ 1) (hlast : '/' ∉ last) :
    ∃ host org, parseEntry filename line = .ok (splitBranch line host org last) := by
  have hlast2 : strings.Split '/' last = [last] := strings.Split_of_not_mem '/' last hlast
  rcases Nat.le_one_iff_eq_zero_or_eq_one.1 hpre with h0 | h1
  · have hp : '/' ∉ pre := List.count_eq_zero.1 h0
    have hs : strings.Split '/' line = [pre, last] := by
      rw [hline, List.append_assoc, List.singleton_append,
        strings.Split_append_sep '/' pre last hp, hlast2]
    exact ⟨[], pre, by simp only [parseEntry, hs]⟩
  · obtain ⟨host, org, hps⟩ := Split_of_count_one '/' pre h1
    obtain ⟨hpe, hh, ho⟩ := strings.Split_eq_two '/' pre host org hps
    have hs : strings.Split '/' line = [host, org, last] := by
      have he : line = host ++ '/' :: (org ++ '/' :: last) := by
        rw [hline, hpe]; simp
      rw [he, strings.Split_append_sep '/' host _ hh, strings.Split_append_sep '/' org last ho,
        hlast2]
    exact ⟨host, org, by simp only [parseEntry, hs]⟩

end campaign

/-- C17: a manifest made of one non-comment line with two or three segments
(`line = pre/last`) whose last segment contains two or more `@` loads
successfully as one entry with an empty BranchName, RepoName the entire last
segment, an empty FullRepoName and hence an empty VisibleName. -/
theorem c17_several_at (fs : FileSystem) (filename line pre last : Str)
    (hname : filename ≠ [])
    (hfile : fs filename = some { lines := [line], scanErr := none })
    (hcomment : line.head? ≠ some '#')
    (hline : line = pre ++ ['/'] ++ last) (hpre : pre.count '/' ≤ 1) (hlast : '/' ∉ last)
    (hat : 2 ≤ last.count '@') :
    ∃ r, readReposTxtFile fs filename = .ok [r] ∧
      r.BranchName = [] ∧ r.RepoName = last ∧ r.FullRepoName = [] ∧ r.VisibleName = [] := by
  have hne : line ≠ [] := by rw [hline]; simp
  obtain ⟨host, org, hp⟩ := parseEntry_segments filename line pre last hline hpre hlast
  refine ⟨splitBranch line host org last, ?_, ?_⟩
  · rw [readReposTxtFile_one_line fs filename line hname hfile hne hcomment, hp]
  · rcases splitBranch_by_count line host org last with ⟨h, -⟩ | ⟨h, -⟩ | ⟨-, hs⟩
    · omega
    · omega
    · rw [hs]
      exact ⟨rfl, rfl, rfl, rfl⟩

/-- C17 at the manifest `a/b@c@d`. -/
theorem c17_several_at_witness :
    ∃ r, readReposTxtFile (oneFile "repos.txt".toList ["a/b@c@d".toList]) "repos.txt".toList =
        .ok [r] ∧
      r.BranchName = [] ∧ r.RepoName = "b@c@d".toList ∧ r.FullRepoName = [] ∧
      r.VisibleName = [] :=
  c17_several_at (oneFile "repos.txt".toList ["a/b@c@d".toList]) "repos.txt".toList
    "a/b@c@d".toList "a".toList "b@c@d".toList
    (by decide) (by decide) (by decide) (by decide) (by decide) (by decide) (by decide)

/-- C18: for a manifest made of one non-comment line with two or three
segments whose last segment has no `@`, or has exactly one `@` followed by a
non-empty branch, the VisibleName of the entry is the line itself. -/
theorem c18_visible_name_roundtrip (fs : FileSystem) (filename line pre last : Str)
    (hname : filename ≠ [])
    (hfile : fs filename = some { lines := [line], scanErr := none })
    (hcomment : line.head? ≠ some '#')
    (hline : line = pre ++ ['/'] ++ last) (hpre : pre.count '/' ≤ 1) (hlast : '/' ∉ last)
    (hat : '@' ∉ last ∨
      ∃ name branch, last = name ++ ['@'] ++ branch ∧ '@' ∉ name ∧ '@' ∉ branch ∧ branch ≠ []) :
    ∃ r, readReposTxtFile fs filename = .ok [r] ∧ r.VisibleName = line := by
  have hne : line ≠ [] := by rw [hline]; simp
  obtain ⟨host, org, hp⟩ := parseEntry_segments filename line pre last hline hpre hlast
  refine ⟨splitBranch line host org last, ?_, ?_⟩
  · rw [readReposTxtFile_one_line fs filename line hname hfile hne hcomment, hp]
  · rcases hat with h | ⟨name, branch, hl, hn, hb, hbne⟩
    · rw [splitBranch_no_at line host org last h]
      simp [Repo.VisibleName]
    · have hline2 : line = (pre ++ ['/']) ++ name ++ ['@'] ++ branch := by
        rw [hline, hl]; simp
      rw [hl]
      conv_lhs => rw [hline2]
      rw [splitBranch_one_at (pre ++ ['/']) host org name branch hn hb]
      simp only [Repo.VisibleName, if_neg hbne]
      rw [hline2]

/-- C18 at the manifest `h/o/r@b`. -/
theorem c18_visible_name_roundtrip_witness :
    ∃ r, readReposTxtFile (oneFile "repos.txt".toList ["h/o/r@b".toList]) "repos.txt".toList =
        .ok [r] ∧ r.VisibleName = "h/o/r@b".toList :=
  c18_visible_name_roundtrip (oneFile "repos.txt".toList ["h/o/r@b".toList])
    "repos.txt".toList "h/o/r@b".toList "h/o".toList "r@b".toList
    (by decide) (by decide) (by decide) (by decide) (by decide) (by decide)
    (Or.inr ⟨"r".toList, "b".toList, by decide, by decide, by decide, by decide⟩)

/-! ## The title line of the description -/

namespace campaign

/-- The loop passes over lines that strip to nothing as long as the title is
empty. -/
theorem scanDescription_untitled (pre rest : List Str) (prBodyLines : List Str)
    (h : ∀ x ∈ pre, strings.TrimLeft x ['#', ' '] = []) :
    scanDescription (pre ++ rest) [] prBodyLines = scanDescription rest [] prBodyLines := by
  induction pre with
  | nil => rfl
  | cons l ls ih =>
    rw [List.cons_append, scanDescription, if_pos rfl, h l (List.mem_cons_self _ _)]
    exact ih (fun x hx => h x (List.mem_cons_of_mem _ hx))

/-- Either every line strips to nothing, or there is an earliest line that
does not. -/
theorem first_titled_line (lines : List Str) :
    (∀ x ∈ lines, strings.TrimLeft x ['#', ' '] = []) ∨
    ∃ pre l post, lines = pre ++ l :: post ∧
      (∀ x ∈ pre, strings.TrimLeft x ['#', ' '] = []) ∧ strings.TrimLeft l ['#', ' '] ≠ [] := by
  induction lines with
  | nil => exact Or.inl (by simp)
  | cons l ls ih =>
    by_cases hl : strings.TrimLeft l ['#', ' '] = []
    · rcases ih with h | ⟨pre, x, post, h1, h2, h3⟩
      · refine Or.inl ?_
        intro y hy
        rcases List.mem_cons.1 hy with e | hy
        · rw [e]; exact hl
        · exact h y hy
      · refine Or.inr ⟨l :: pre, x, post, by rw [h1]; rfl, ?_, h3⟩
        intro y hy
        rcases List.mem_cons.1 hy with e | hy
        · rw [e]; exact hl
        · exact h2 y hy
    · exact Or.inr ⟨[], l, ls, rfl, by simp, hl⟩

end campaign

/-- C19: the extraction takes as title the stripped form of the earliest line
whose stripped form is not empty, drops the lines before it and returns as
body the lines after it joined with newlines; when every line strips to
nothing, title and body are both empty.  Hence an empty title comes with an
empty body. -/
theorem c19_first_titled_line (fs : FileSystem) (lines : List Str)
    (hfile : fs readmeFilename = some { lines := lines, scanErr := none }) :
    (∀ (pre : List Str) (l : Str) (post : List Str), lines = pre ++ l :: post →
      (∀ x ∈ pre, strings.TrimLeft x ['#', ' '] = []) →
      strings.TrimLeft l ['#', ' '] ≠ [] →
      readPrDescriptionFile fs =
        .ok (strings.TrimLeft l ['#', ' '], strings.Join post ['\n'])) ∧
    ((∀ x ∈ lines, strings.TrimLeft x ['#', ' '] = []) →
      readPrDescriptionFile fs = .ok ([], [])) ∧
    (∀ title body, readPrDescriptionFile fs = .ok (title, body) → title = [] → body = []) := by
  have h1 : ∀ (pre : List Str) (l : Str) (post : List Str), lines = pre ++ l :: post →
      (∀ x ∈ pre, strings.TrimLeft x ['#', ' '] = []) →
      strings.TrimLeft l ['#', ' '] ≠ [] →
      readPrDescriptionFile fs =
        .ok (strings.TrimLeft l ['#', ' '], strings.Join post ['\n']) := by
    intro pre l post hl hpre hne
    simp only [readPrDescriptionFile, hfile, hl, scanDescription_untitled pre (l :: post) [] hpre,
      scanDescription, if_true, scanDescription_titled post _ [] hne, List.nil_append]
  have h2 : (∀ x ∈ lines, strings.TrimLeft x ['#', ' '] = []) →
      readPrDescriptionFile fs = .ok ([], []) := by
    intro hall
    have := scanDescription_untitled lines [] [] hall
    rw [List.append_nil] at this
    simp only [readPrDescriptionFile, hfile, this, scanDescription, strings.Join]
  refine ⟨h1, h2, ?_⟩
  intro title body hok ht
  rcases first_titled_line lines with hall | ⟨pre, l, post, hl, hpre, hne⟩
  · rw [h2 hall] at hok
    simp only [Except.ok.injEq, Prod.mk.injEq] at hok
    exact hok.2.symm
  · rw [h1 pre l post hl hpre hne] at hok
    simp only [Except.ok.injEq, Prod.mk.injEq] at hok
    exact absurd (hok.1.trans ht) hne

/-- C19 at the document whose lines are an empty line, `# `, `## T`, `b1`, an
empty line and `b2`: the title is `T` and the body is `b1`, empty line,
`b2`. -/
theorem c19_first_titled_line_witness :
    readPrDescriptionFile
        (oneFile readmeFilename
          [[], "# ".toList, "## T".toList, "b1".toList, [], "b2".toList]) =
      .ok ("T".toList, "b1\n\nb2".toList) ∧
    readPrDescriptionFile (oneFile readmeFilename [[], "# ".toList]) = .ok ([], []) :=
  ⟨(c19_first_titled_line
      (oneFile readmeFilename [[], "# ".toList, "## T".toList, "b1".toList, [], "b2".toList])
      [[], "# ".toList, "## T".toList, "b1".toList, [], "b2".toList] (by decide)).1
      [[], "# ".toList] "## T".toList ["b1".toList, [], "b2".toList]
      (by decide) (by decide) (by decide),
   (c19_first_titled_line (oneFile readmeFilename [[], "# ".toList]) [[], "# ".toList]
      (by decide)).2.1 (by decide)⟩

/-! ## Deduplication is by raw text -/

namespace campaign

/-- A manifest of two different kept lines that both parse loads as the two
parses, in order. -/
theorem readReposTxtFile_two_lines (fs : FileSystem) (filename l1 l2 : Str) (r1 r2 : Repo)
    (hname : filename ≠ [])
    (hfile : fs filename = some { lines := [l1, l2], scanErr := none })
    (hne1 : l1 ≠ []) (hc1 : l1.head? ≠ some '#')
    (hne2 : l2 ≠ []) (hc2 : l2.head? ≠ some '#') (hdiff : l2 ≠ l1)
    (hp1 : parseEntry filename l1 = .ok r1) (hp2 : parseEntry filename l2 = .ok r2) :
    readReposTxtFile fs filename = .ok [r1, r2] := by
  have hk1 := (keep_iff l1).2 ⟨hne1, hc1⟩
  have hk2 := (keep_iff l2).2 ⟨hne2, hc2⟩
  simp only [readReposTxtFile, if_neg hname, hfile, scanRepos, hk1, hk2, if_true,
    List.not_mem_nil, if_false, hp1, hp2, List.mem_singleton, hdiff, List.nil_append,
    List.singleton_append]

/-- A whitespace character is neither `/` nor `@`. -/
theorem whitespace_ne (c : Char) (h : c.isWhitespace = true) : c ≠ '/' ∧ c ≠ '@' := by
  constructor
  · intro e
    rw [e] at h
    exact absurd h (by decide)
  · intro e
    rw [e] at h
    exact absurd h (by decide)

/-- The branch switch gives different entries for a last segment and for the
same segment followed by text without `@`. -/
theorem splitBranch_trailing_ne (line line2 host org host2 org2 last ws : Str)
    (hws : ws ≠ []) (hat : '@' ∉ ws) :
    splitBranch line host org last ≠ splitBranch line2 host2 org2 (last ++ ws) := by
  have hcount : (last ++ ws).count '@' = last.count '@' := by
    rw [List.count_append, List.count_eq_zero.2 hat, Nat.add_zero]
  have hlen : last ≠ last ++ ws := by
    intro e
    exact hws (List.self_eq_append_right.1 e)
  intro heq
  have hrepo := congrArg Repo.RepoName heq
  have hbranch := congrArg Repo.BranchName heq
  rcases splitBranch_by_count line host org last with
    ⟨c1, s1⟩ | ⟨c1, n1, b1, hl1, -, -, s1⟩ | ⟨c1, s1⟩ <;>
  rcases splitBranch_by_count line2 host2 org2 (last ++ ws) with
    ⟨c2, s2⟩ | ⟨c2, n2, b2, hl2, -, -, s2⟩ | ⟨c2, s2⟩ <;>
  first
    | omega
    | (rw [s1, s2] at hrepo; exact hlen hrepo)
    | (rw [s1, s2] at hrepo hbranch
       simp only at hrepo hbranch
       rw [hl1, hrepo, hbranch] at hl2
       exact hlen (by rw [hl1, hrepo, hbranch]; exact hl2.symm))

end campaign

/-- C20: deduplication compares raw lines only.  The manifest `org/repo`,
`org/repo@` loads successfully as two entries that agree in all five fields;
and for every entry line `line` of two or three segments and every non-empty
run `ws` of whitespace, the manifest `line`, `line ++ ws` loads as two
entries, the parses of the two lines, which differ. -/
theorem c20_raw_text_dedup (fs : FileSystem) (filename line pre last ws : Str)
    (hname : filename ≠ [])
    (hfile : fs filename = some { lines := [line, line ++ ws], scanErr := none })
    (hcomment : line.head? ≠ some '#')
    (hline : line = pre ++ ['/'] ++ last) (hpre : pre.count '/' ≤ 1) (hlast : '/' ∉ last)
    (hws : ws ≠ []) (hspace : ∀ c ∈ ws, c.isWhitespace = true) :
    (∃ r, "org/repo".toList ≠ "org/repo@".toList ∧
      readReposTxtFile (oneFile filename ["org/repo".toList, "org/repo@".toList]) filename =
        .ok [r, r]) ∧
    ∃ r1 r2, readReposTxtFile fs filename = .ok [r1, r2] ∧
      parseEntry filename line = .ok r1 ∧ parseEntry filename (line ++ ws) = .ok r2 ∧
      r1 ≠ r2 := by
  constructor
  · refine ⟨⟨[], "org".toList, "repo".toList, "org/repo".toList, []⟩, by decide, ?_⟩
    exact readReposTxtFile_two_lines (oneFile filename ["org/repo".toList, "org/repo@".toList])
      filename "org/repo".toList "org/repo@".toList _ _ hname (by simp [oneFile])
      (by decide) (by decide) (by decide) (by decide) (by decide) (by rfl) (by rfl)
  · have hne : line ≠ [] := by rw [hline]; simp
    have hslash : '/' ∉ ws := fun h => (whitespace_ne '/' (hspace '/' h)).1 rfl
    have hat : '@' ∉ ws := fun h => (whitespace_ne '@' (hspace '@' h)).2 rfl
    have hline2 : line ++ ws = pre ++ ['/'] ++ (last ++ ws) := by
      rw [hline]; simp
    have hlast2 : '/' ∉ last ++ ws := by
      simp only [List.mem_append, not_or]
      exact ⟨hlast, hslash⟩
    obtain ⟨host, org, hp1⟩ := parseEntry_segments filename line pre last hline hpre hlast
    obtain ⟨host2, org2, hp2⟩ :=
      parseEntry_segments filename (line ++ ws) pre (last ++ ws) hline2 hpre hlast2
    refine ⟨_, _, ?_, hp1, hp2, splitBranch_trailing_ne _ _ _ _ _ _ last ws hws hat⟩
    refine readReposTxtFile_two_lines fs filename line (line ++ ws) _ _ hname hfile hne hcomment
      (by simp [hne]) ?_ ?_ hp1 hp2
    · cases line with
      | nil => exact absurd rfl hne
      | cons c cs => simpa using hcomment
    · intro e
      exact hws (List.append_right_eq_self.1 e)

/-- C20 at the manifest `org/repo`, `org/repo` followed by a space. -/
theorem c20_raw_text_dedup_witness :
    (∃ r, "org/repo".toList ≠ "org/repo@".toList ∧
      readReposTxtFile
          (oneFile "repos.txt".toList ["org/repo".toList, "org/repo@".toList])
          "repos.txt".toList = .ok [r, r]) ∧
    ∃ r1 r2,
      readReposTxtFile
          (oneFile "repos.txt".toList ["org/repo".toList, "org/repo".toList ++ " ".toList])
          "repos.txt".toList = .ok [r1, r2] ∧
      parseEntry "repos.txt".toList "org/repo".toList = .ok r1 ∧
      parseEntry "repos.txt".toList ("org/repo".toList ++ " ".toList) = .ok r2 ∧
      r1 ≠ r2 :=
  c20_raw_text_dedup
    (oneFile "repos.txt".toList ["org/repo".toList, "org/repo".toList ++ " ".toList])
    "repos.txt".toList "org/repo".toList "org".toList "repo".toList " ".toList
    (by decide) (by decide) (by decide) (by decide) (by decide) (by decide) (by decide)
    (by decide)
